import Mathlib

/-!
Verification development for the `vrpr` repository: a genetic-programming
system evolving routing and sequencing rules for a dynamic capacitated
vehicle-routing problem with time windows (DVRPTW).

Modelling conventions (shallow embedding of the Rust source):
* `f32` values are modelled as `ℚ`; the floating-point square root (the only
  irrational primitive the code uses) is abstracted as an explicit function
  parameter `sq : ℚ → ℚ` threaded through the geometric definitions.
* `u8` bytes are modelled as `ℕ`, with `% 256` inserted exactly where the
  source performs wrapping `u8` arithmetic.
* `usize` indexing that would panic out of bounds is modelled with `Option`
  (for code whose claims concern panics) or with `getD`/default reads at
  positions the verified invariants keep in bounds.
* Random draws are modelled relationally: the draws become existentially
  quantified values constrained to the ranges the source's `gen_range`
  (and friends) sample from.
-/

namespace Vrpr

/-! ## Fitness (src/main.rs, `fn fitness`) -/

/-- A service point (src/sim/problem.rs `Request`). -/
structure Request where
  idx : ℕ
  x : ℚ
  y : ℚ
  demand : ℚ
  open_t : ℚ
  close : ℚ
  service_time : ℚ
  time : ℚ
deriving DecidableEq

/-- The problem instance (src/sim/problem.rs `Problem`). -/
structure Problem where
  depot : Request
  requests : List Request
  truck_speed : ℚ
  truck_capacity : ℚ
  num_trucks : ℕ
deriving DecidableEq

/-- `Problem::total_demand`. -/
def Problem.total_demand (p : Problem) : ℚ :=
  (p.requests.map (fun r => r.demand)).sum

/-- `fn fitness(problem, result)` from src/main.rs: the linear combination of
normalized distance and failure rate, exactly as the source computes it. -/
def fitness (weight : ℚ) (problem : Problem) (distance : ℚ) (num_fail : ℕ) : ℚ :=
  distance / (problem.truck_speed * problem.depot.close * (problem.num_trucks : ℚ)) * weight
    + (num_fail : ℚ) / ((problem.requests.length : ℚ)) * (1 - weight)

/-! ## Tournament selection (src/main.rs, `fn select_parent`)

`select_parent` draws 8 distinct indices without replacement and then takes
`max_by_key(|i| OrderedFloat(pop[*i].result.unwrap().2))`.  The sampled index
list is a parameter here (the draw is random); the fold reproduces Rust's
`Iterator::max_by_key`, which returns the LAST element among ties. -/

/-- Rust `Iterator::max_by_key` over a list of indices with key `fit`. -/
def max_by_key_last (fit : ℕ → ℚ) (l : List ℕ) : Option ℕ :=
  l.foldl
    (fun acc i =>
      match acc with
      | none => some i
      | some b => if fit b ≤ fit i then some i else acc)
    none

/-- `fn select_parent`, given the 8 sampled indices and the cached fitness of
each individual: the source keeps the `max_by_key` element. -/
def select_parent (fit : ℕ → ℚ) (sample : List ℕ) : Option ℕ :=
  max_by_key_last fit sample

/-- C1: in tournament selection the source selects, among the 8 sampled
indices, the individual whose cached fitness is MAXIMAL.  Since lower fitness
is better (the population is sorted ascending by fitness and truncated, and
the spec's glossary defines tournament selection as picking the best), the
code picks the worst sampled individual, contradicting the claim that the
returned index attains the minimum fitness among the samples.  Concretely,
with fitnesses `fit i = i` and sample `[0,…,7]`, the code returns index 7
(fitness 7) while the minimum fitness among the samples is attained at 0. -/
theorem c1_tournament_picks_worst :
    select_parent (fun i => (i : ℚ)) [0, 1, 2, 3, 4, 5, 6, 7] = some 7
      ∧ (0 : ℕ) ∈ [0, 1, 2, 3, 4, 5, 6, 7]
      ∧ ((fun i => (i : ℚ)) 0 : ℚ) < (fun i => (i : ℚ)) 7 := by
  refine ⟨by decide, by decide, by norm_num⟩

/-- C6: the fitness function equals
`weight · (distance / (speed · depot.close · trucks)) + (1 − weight) · (fails / #requests)`,
which is the spec's formula (the spec's `num_requests` is the number of
customer requests, i.e. `problem.requests.len()`, the depot excluded). -/
theorem c6_fitness_formula (weight : ℚ) (problem : Problem) (distance : ℚ) (num_fail : ℕ) :
    fitness weight problem distance num_fail
      = weight * (distance / (problem.truck_speed * problem.depot.close * (problem.num_trucks : ℚ)))
        + (1 - weight) * ((num_fail : ℚ) / (problem.requests.length : ℚ)) := by
  unfold fitness
  ring

/-! ## Run-length encoding (src/gp/program.rs)

`run_length_encode` pushes pairs `(byte, extra_repeats)` onto `res`; a new pair
starts when `res` is too short, the previous byte differs, or the stored count
has reached `u8::MAX`.  `run_length_decode` emits `count + 1` copies per pair;
the `+ 1` is `u8` arithmetic, so a stored count of 255 wraps to 0 copies (the
source would panic in a debug build); the wrap is modelled by `% 256`. -/

/-- One iteration of the `run_length_encode` loop. -/
def rle_step (res : List ℕ) (byte : ℕ) : List ℕ :=
  if res.length < 2 then res ++ [byte, 0]
  else if res.getD (res.length - 2) 0 ≠ byte then res ++ [byte, 0]
  else if res.getD (res.length - 1) 0 = 255 then res ++ [byte, 0]
  else res.dropLast ++ [res.getD (res.length - 1) 0 + 1]

/-- `Program::run_length_encode`. -/
def run_length_encode (v : List ℕ) : List ℕ :=
  v.foldl rle_step []

/-- `Program::run_length_decode` (the source asserts even length; encodings are
always of even length).  Each pair `(b, c)` yields `(c + 1) % 256` copies. -/
def run_length_decode : List ℕ → List ℕ
  | b :: c :: rest => List.replicate ((c + 1) % 256) b ++ run_length_decode rest
  | _ => []

/-- Length of the longest prefix of `l` consisting of copies of `b`. -/
def lead_count (b : ℕ) : List ℕ → ℕ
  | [] => 0
  | c :: rest => if c = b then lead_count b rest + 1 else 0

/-- Fuel-driven check that every maximal run of equal bytes is ≤ 255 long
(the fuel only drives structural recursion; `l.length` fuel always suffices). -/
def runs_ok_fuel : ℕ → List ℕ → Bool
  | _, [] => true
  | 0, _ :: _ => false
  | fuel + 1, b :: rest =>
      decide (lead_count b rest ≤ 254) && runs_ok_fuel fuel (List.drop (lead_count b rest) rest)

/-- Every maximal run of equal bytes in `l` has length at most 255. -/
def runs_ok (l : List ℕ) : Bool :=
  runs_ok_fuel l.length l

theorem runs_ok_fuel_mono : ∀ (n : ℕ) (m : ℕ) (l : List ℕ), l.length ≤ n → l.length ≤ m →
    runs_ok_fuel n l = runs_ok_fuel m l
  | n, m, [], _, _ => by cases n <;> cases m <;> simp [runs_ok_fuel]
  | n + 1, m + 1, b :: rest, hn, hm => by
      simp only [runs_ok_fuel]
      have hlen : (List.drop (lead_count b rest) rest).length ≤ rest.length := by
        simp [List.length_drop]
      have h1 : rest.length ≤ n := by simp at hn; omega
      have h2 : rest.length ≤ m := by simp at hm; omega
      rw [runs_ok_fuel_mono n m (List.drop (lead_count b rest) rest) (by omega) (by omega)]
  | 0, _, b :: rest, hn, _ => by simp at hn
  | _ + 1, 0, b :: rest, _, hm => by simp at hm

theorem runs_ok_cons (b : ℕ) (rest : List ℕ) :
    runs_ok (b :: rest)
      = (decide (lead_count b rest ≤ 254)
          && runs_ok (List.drop (lead_count b rest) rest)) := by
  unfold runs_ok
  simp only [List.length_cons, runs_ok_fuel]
  rw [runs_ok_fuel_mono rest.length (List.drop (lead_count b rest) rest).length
    (List.drop (lead_count b rest) rest) (by simp) (le_refl _)]

theorem lead_count_le (b : ℕ) (l : List ℕ) : lead_count b l ≤ l.length := by
  induction l with
  | nil => simp [lead_count]
  | cons c rest ih =>
      simp only [lead_count, List.length_cons]
      split
      · omega
      · omega

theorem lead_count_split (b : ℕ) (l : List ℕ) :
    l = List.replicate (lead_count b l) b ++ List.drop (lead_count b l) l := by
  induction l with
  | nil => simp [lead_count]
  | cons c rest ih =>
      simp only [lead_count]
      split
      · next h =>
          subst h
          simpa [List.replicate_succ] using congrArg (List.cons c) ih
      · simp

theorem lead_count_drop_ne (b : ℕ) (l : List ℕ) :
    ∀ c ∈ (List.drop (lead_count b l) l).head?, c ≠ b := by
  induction l with
  | nil => simp [lead_count]
  | cons c rest ih =>
      simp only [lead_count]
      split
      · next h => simpa using ih
      · next h => simpa using h

theorem getD_append_pair1 (res' : List ℕ) (b c d : ℕ) :
    (res' ++ [b, c]).getD res'.length d = b := by
  rw [List.getD_eq_getElem?_getD, List.getElem?_append_right (Nat.le_refl _)]
  simp

theorem getD_append_pair2 (res' : List ℕ) (b c d : ℕ) :
    (res' ++ [b, c]).getD (res'.length + 1) d = c := by
  rw [List.getD_eq_getElem?_getD,
    List.getElem?_append_right (by omega : res'.length ≤ res'.length + 1)]
  have h : res'.length + 1 - res'.length = 1 := by omega
  rw [h]
  simp

theorem dropLast_append_pair (res' : List ℕ) (b c : ℕ) :
    (res' ++ [b, c]).dropLast = res' ++ [b] := by
  rw [show res' ++ [b, c] = (res' ++ [b]) ++ [c] by simp]
  simp

/-- Stepping the encoder with the trailing run's byte merges into the pair. -/
theorem rle_step_merge (res' : List ℕ) (b c : ℕ) (hc : c ≤ 254) :
    rle_step (res' ++ [b, c]) b = res' ++ [b, c + 1] := by
  unfold rle_step
  have hlen : (res' ++ [b, c]).length = res'.length + 2 := by simp
  rw [hlen]
  have h2 : res'.length + 2 - 2 = res'.length := by omega
  have h1 : res'.length + 2 - 1 = res'.length + 1 := by omega
  rw [h2, h1, getD_append_pair1, getD_append_pair2]
  have : ¬ (res'.length + 2 < 2) := by omega
  simp only [this, if_false, ne_eq, not_true_eq_false, if_neg, if_pos]
  have : ¬ (c = 255) := by omega
  simp [this, dropLast_append_pair]

/-- Stepping the encoder with a different byte appends a fresh pair. -/
theorem rle_step_new (res' : List ℕ) (b c b' : ℕ) (h : b' ≠ b) :
    rle_step (res' ++ [b, c]) b' = (res' ++ [b, c]) ++ [b', 0] := by
  unfold rle_step
  have hlen : (res' ++ [b, c]).length = res'.length + 2 := by simp
  rw [hlen]
  have h2 : res'.length + 2 - 2 = res'.length := by omega
  rw [h2, getD_append_pair1]
  have : ¬ (res'.length + 2 < 2) := by omega
  simp [this, Ne.symm h]

/-- Folding the encoder over a run of `j` copies of the trailing byte adds `j`
to the trailing count, as long as the count never reaches 255. -/
theorem rle_fold_run (j : ℕ) : ∀ (res' : List ℕ) (b c : ℕ), c + j ≤ 255 →
    List.foldl rle_step (res' ++ [b, c]) (List.replicate j b) = res' ++ [b, c + j] := by
  induction j with
  | zero => intro res' b c _; simp
  | succ n ih =>
      intro res' b c hc
      rw [List.replicate_succ, List.foldl_cons, rle_step_merge res' b c (by omega)]
      rw [ih res' b (c + 1) (by omega)]
      have h : c + 1 + n = c + (n + 1) := by omega
      rw [h]

theorem run_length_decode_append :
    ∀ (res t : List ℕ), res.length % 2 = 0 →
      run_length_decode (res ++ t) = run_length_decode res ++ run_length_decode t
  | [], t, _ => by simp [run_length_decode]
  | [x], t, h => by simp at h
  | b :: c :: rest, t, h => by
      simp only [List.cons_append, run_length_decode, List.append_assoc, List.append_eq]
      rw [run_length_decode_append rest t
        (by simp only [List.length_cons] at h; omega)]

/-- Decoding with a trailing pair splits off `(count + 1) % 256` copies. -/
theorem run_length_decode_pair (res' : List ℕ) (b x : ℕ) (h : res'.length % 2 = 0) :
    run_length_decode (res' ++ [b, x])
      = run_length_decode res' ++ List.replicate ((x + 1) % 256) b := by
  rw [run_length_decode_append res' [b, x] h]
  simp [run_length_decode]

theorem replicate_merge_append (d : List ℕ) (b : ℕ) (p q : ℕ) (t : List ℕ) :
    d ++ (List.replicate p b ++ (List.replicate q b ++ t))
      = d ++ (List.replicate (p + q) b ++ t) := by
  rw [List.replicate_add, List.append_assoc]

/-- Core invariant of the encoder fold: starting from a well-formed prefix with
trailing pair `(b, c)`, folding the remaining input (whose leading run of `b`
keeps the count below 255 and whose later runs are all short) decodes to the
prefix's decoding followed by the remaining input verbatim. -/
theorem rle_fold_decode :
    ∀ (n : ℕ) (v : List ℕ), v.length ≤ n → ∀ (res' : List ℕ) (b c : ℕ),
      res'.length % 2 = 0 →
      c + lead_count b v ≤ 254 →
      runs_ok (List.drop (lead_count b v) v) = true →
      run_length_decode (List.foldl rle_step (res' ++ [b, c]) v)
        = run_length_decode (res' ++ [b, c]) ++ v := by
  intro n
  induction n with
  | zero =>
      intro v hv res' b c hres hc hruns
      have : v = [] := List.length_eq_zero.mp (by omega)
      subst this
      simp
  | succ n ih =>
      intro v hv res' b c hres hc hruns
      set j := lead_count b v with hj
      have hsplit : v = List.replicate j b ++ List.drop j v := lead_count_split b v
      have hfold : List.foldl rle_step (res' ++ [b, c]) v
          = List.foldl rle_step (res' ++ [b, c + j]) (List.drop j v) := by
        conv_lhs => rw [hsplit]
        rw [List.foldl_append, rle_fold_run j res' b c (by omega)]
      match hdrop : List.drop j v with
      | [] =>
          rw [hfold, hdrop, List.foldl_nil]
          rw [run_length_decode_pair res' b (c + j) hres,
              run_length_decode_pair res' b c hres]
          have h1 : (c + j + 1) % 256 = c + j + 1 := Nat.mod_eq_of_lt (by omega)
          have h2 : (c + 1) % 256 = c + 1 := Nat.mod_eq_of_lt (by omega)
          rw [h1, h2]
          conv_rhs => rw [hsplit, hdrop]
          have key2 : List.replicate (c + j + 1) b
              = List.replicate (c + 1) b ++ List.replicate j b := by
            rw [← List.replicate_add]
            have h3 : c + 1 + j = c + j + 1 := by omega
            rw [h3]
          rw [List.append_nil, List.append_assoc, ← key2]
      | b' :: rest =>
          have hb' : b' ≠ b := by
            have := lead_count_drop_ne b v
            rw [hdrop] at this
            exact this b' (by simp)
          rw [hfold, hdrop, List.foldl_cons, rle_step_new res' b (c + j) b' hb']
          have hruns' : runs_ok (b' :: rest) = true := by rw [← hdrop]; exact hruns
          have hrunsparts : lead_count b' rest ≤ 254
              ∧ runs_ok (List.drop (lead_count b' rest) rest) = true := by
            rw [runs_ok_cons] at hruns'
            constructor
            · exact of_decide_eq_true (Bool.and_elim_left hruns')
            · exact Bool.and_elim_right hruns'
          have hlen : rest.length ≤ n := by
            have h1 : v.length = j + (List.drop j v).length := by
              conv_lhs => rw [hsplit]
              simp
            rw [hdrop] at h1
            simp at h1
            omega
          have heven : (res' ++ [b, c + j]).length % 2 = 0 := by
            simp only [List.length_append, List.length_cons, List.length_nil]
            omega
          have := ih rest hlen (res' ++ [b, c + j]) b' 0 heven
            (by simpa using hrunsparts.1) hrunsparts.2
          rw [this]
          rw [run_length_decode_pair (res' ++ [b, c + j]) b' 0 heven]
          rw [run_length_decode_pair res' b (c + j) hres,
              run_length_decode_pair res' b c hres]
          have h1 : (c + j + 1) % 256 = c + j + 1 := Nat.mod_eq_of_lt (by omega)
          have h2 : (c + 1) % 256 = c + 1 := Nat.mod_eq_of_lt (by omega)
          rw [h1, h2]
          conv_rhs => rw [hsplit, hdrop]
          have key2 : List.replicate (c + j + 1) b
              = List.replicate (c + 1) b ++ List.replicate j b := by
            rw [← List.replicate_add]
            have h3 : c + 1 + j = c + j + 1 := by omega
            rw [h3]
          rw [key2]
          simp only [List.append_assoc, List.nil_append, List.cons_append,
            List.replicate_one, Nat.zero_add, Nat.reduceMod, List.singleton_append,
            ← List.replicate_add]
          rw [replicate_merge_append]

/-- The RLE round trip holds for vectors whose maximal runs are ≤ 255 long. -/
theorem rle_round_trip (v : List ℕ) (h : runs_ok v = true) :
    run_length_decode (run_length_encode v) = v := by
  match v with
  | [] => simp [run_length_encode, run_length_decode]
  | b :: rest =>
      rw [runs_ok_cons] at h
      have h1 : lead_count b rest ≤ 254 := of_decide_eq_true (Bool.and_elim_left h)
      have h2 : runs_ok (List.drop (lead_count b rest) rest) = true := Bool.and_elim_right h
      unfold run_length_encode
      rw [List.foldl_cons]
      have hstep : rle_step [] b = [] ++ [b, 0] := by simp [rle_step]
      rw [hstep]
      rw [rle_fold_decode rest.length rest le_rfl [] b 0 (by simp) (by omega) h2]
      simp [run_length_decode]

/-! ## Base64 (the `base64` crate, an external dependency of the source)

Modelled from the spec: the source delegates to `BASE64_STANDARD` of the
`base64` crate, whose code is not part of this repository.  Standard base64
(RFC 4648): bytes are split into sextets, sextets are mapped through the
64-character alphabet, and the output is padded with `=` (ASCII 61) to a
multiple of four characters; decoding is the inverse.  Characters are
modelled as their ASCII code points. -/

/-- The standard base64 alphabet, as ASCII code points. -/
def b64_char (i : ℕ) : ℕ :=
  if i < 26 then 65 + i
  else if i < 52 then 97 + (i - 26)
  else if i < 62 then 48 + (i - 52)
  else if i = 62 then 43
  else 47

/-- Inverse of the alphabet map (0 on junk input). -/
def b64_index (c : ℕ) : ℕ :=
  if 65 ≤ c ∧ c ≤ 90 then c - 65
  else if 97 ≤ c ∧ c ≤ 122 then c - 97 + 26
  else if 48 ≤ c ∧ c ≤ 57 then c - 48 + 52
  else if c = 43 then 62
  else if c = 47 then 63
  else 0

/-- Split a byte string into base64 sextets (most significant bits first). -/
def to_sextets : List ℕ → List ℕ
  | a :: b :: c :: rest =>
      [a / 4, a % 4 * 16 + b / 16, b % 16 * 4 + c / 64, c % 64] ++ to_sextets rest
  | [a, b] => [a / 4, a % 4 * 16 + b / 16, b % 16 * 4]
  | [a] => [a / 4, a % 4 * 16]
  | [] => []

/-- Reassemble bytes from base64 sextets. -/
def from_sextets : List ℕ → List ℕ
  | a :: b :: c :: d :: rest =>
      [a * 4 + b / 16, b % 16 * 16 + c / 4, c % 4 * 64 + d] ++ from_sextets rest
  | [a, b, c] => [a * 4 + b / 16, b % 16 * 16 + c / 4]
  | [a, b] => [a * 4 + b / 16]
  | _ => []

/-- Number of `=` padding characters for a byte string of the given length. -/
def b64_pad_len (n : ℕ) : ℕ :=
  match n % 3 with
  | 1 => 2
  | 2 => 1
  | _ => 0

/-- `BASE64_STANDARD.encode`. -/
def base64_encode (bytes : List ℕ) : List ℕ :=
  (to_sextets bytes).map b64_char ++ List.replicate (b64_pad_len bytes.length) 61

/-- `BASE64_STANDARD.decode`: strip padding, invert the alphabet, reassemble. -/
def base64_decode (s : List ℕ) : List ℕ :=
  from_sextets ((s.filter (fun c => c ≠ 61)).map b64_index)

theorem b64_index_char : ∀ i < 64, b64_index (b64_char i) = i := by
  decide

theorem b64_char_ne_pad (i : ℕ) : b64_char i ≠ 61 := by
  unfold b64_char
  split
  · omega
  · split
    · omega
    · split
      · omega
      · split
        · omega
        · omega

theorem to_sextets_lt : ∀ (bytes : List ℕ), (∀ b ∈ bytes, b < 256) →
    ∀ s ∈ to_sextets bytes, s < 64
  | a :: b :: c :: rest, h => by
      simp only [to_sextets, List.cons_append, List.nil_append, List.mem_cons]
      intro s hs
      have ha : a < 256 := h a (by simp)
      have hb : b < 256 := h b (by simp)
      have hc : c < 256 := h c (by simp)
      rcases hs with rfl | rfl | rfl | rfl | hs
      · omega
      · omega
      · omega
      · omega
      · exact to_sextets_lt rest (fun x hx => h x (by simp [hx])) s hs
  | [a, b], h => by
      simp only [to_sextets, List.mem_cons]
      intro s hs
      have ha : a < 256 := h a (by simp)
      have hb : b < 256 := h b (by simp)
      rcases hs with rfl | rfl | rfl | hs
      · omega
      · omega
      · omega
      · simp at hs
  | [a], h => by
      simp only [to_sextets, List.mem_cons]
      intro s hs
      have ha : a < 256 := h a (by simp)
      rcases hs with rfl | rfl | hs
      · omega
      · omega
      · simp at hs
  | [], _ => by simp [to_sextets]

theorem from_to_sextets : ∀ (bytes : List ℕ), (∀ b ∈ bytes, b < 256) →
    from_sextets (to_sextets bytes) = bytes
  | a :: b :: c :: rest, h => by
      have ha : a < 256 := h a (by simp)
      have hb : b < 256 := h b (by simp)
      have hc : c < 256 := h c (by simp)
      have ih := from_to_sextets rest (fun x hx => h x (by simp [hx]))
      simp only [to_sextets, List.cons_append, List.nil_append, List.append_eq,
        from_sextets, ih]
      have e1 : a / 4 * 4 + (a % 4 * 16 + b / 16) / 16 = a := by omega
      have e2 : (a % 4 * 16 + b / 16) % 16 * 16 + (b % 16 * 4 + c / 64) / 4 = b := by omega
      have e3 : (b % 16 * 4 + c / 64) % 4 * 64 + c % 64 = c := by omega
      rw [e1, e2, e3]
  | [a, b], h => by
      have ha : a < 256 := h a (by simp)
      have hb : b < 256 := h b (by simp)
      simp only [to_sextets, from_sextets]
      have e1 : a / 4 * 4 + (a % 4 * 16 + b / 16) / 16 = a := by omega
      have e2 : (a % 4 * 16 + b / 16) % 16 * 16 + b % 16 * 4 / 4 = b := by omega
      rw [e1, e2]
  | [a], h => by
      have ha : a < 256 := h a (by simp)
      simp only [to_sextets, from_sextets]
      have e1 : a / 4 * 4 + a % 4 * 16 / 16 = a := by omega
      rw [e1]
  | [], _ => by simp [to_sextets, from_sextets]

/-- Base64 round trip on byte strings. -/
theorem base64_round_trip (bytes : List ℕ) (h : ∀ b ∈ bytes, b < 256) :
    base64_decode (base64_encode bytes) = bytes := by
  unfold base64_encode base64_decode
  rw [List.filter_append]
  have hpad : (List.replicate (b64_pad_len bytes.length) 61).filter (fun c => c ≠ 61)
      = [] := by
    rw [List.filter_eq_nil_iff]
    intro a ha
    have := List.eq_of_mem_replicate ha
    simp [this]
  have hchars : ((to_sextets bytes).map b64_char).filter (fun c => c ≠ 61)
      = (to_sextets bytes).map b64_char := by
    rw [List.filter_eq_self]
    intro a ha
    obtain ⟨s, _, rfl⟩ := List.mem_map.mp ha
    simpa using b64_char_ne_pad s
  rw [hpad, hchars, List.append_nil, List.map_map]
  have hmap : (to_sextets bytes).map (b64_index ∘ b64_char) = (to_sextets bytes).map id :=
    List.map_congr_left
      (fun s hs => by simpa using b64_index_char s (to_sextets_lt bytes h s hs))
  rw [hmap, List.map_id]
  exact from_to_sextets bytes h

theorem mem_append_pair_lt (res : List ℕ) (b : ℕ) (hb : b < 256)
    (h : ∀ x ∈ res, x < 256) : ∀ x ∈ res ++ [b, 0], x < 256 := by
  intro x hx
  simp only [List.mem_append, List.mem_cons, List.not_mem_nil, or_false] at hx
  rcases hx with hx | rfl | rfl
  · exact h x hx
  · exact hb
  · omega

theorem rle_step_lt (res : List ℕ) (b : ℕ) (hb : b < 256) (h : ∀ x ∈ res, x < 256) :
    ∀ x ∈ rle_step res b, x < 256 := by
  unfold rle_step
  split
  · exact mem_append_pair_lt res b hb h
  · split
    · exact mem_append_pair_lt res b hb h
    · split
      · exact mem_append_pair_lt res b hb h
      · next hlen2 _ h255 =>
          intro x hx
          have hlen : 2 ≤ res.length := by omega
          have hy : res.getD (res.length - 1) 0 ∈ res := by
            rw [List.getD_eq_getElem?_getD,
              List.getElem?_eq_getElem (by omega : res.length - 1 < res.length)]
            exact List.getElem_mem _
          have hylt : res.getD (res.length - 1) 0 < 256 := h _ hy
          simp only [List.mem_append, List.mem_cons, List.not_mem_nil, or_false] at hx
          rcases hx with hx | rfl
          · exact h x (List.dropLast_sublist res |>.mem hx)
          · omega

theorem rle_fold_lt : ∀ (v res : List ℕ), (∀ x ∈ v, x < 256) → (∀ x ∈ res, x < 256) →
    ∀ x ∈ List.foldl rle_step res v, x < 256
  | [], _, _, hres => hres
  | b :: rest, res, hv, hres => by
      rw [List.foldl_cons]
      exact rle_fold_lt rest (rle_step res b)
        (fun x hx => hv x (by simp [hx]))
        (rle_step_lt res b (hv b (by simp)) hres)

theorem run_length_encode_lt (v : List ℕ) (hv : ∀ x ∈ v, x < 256) :
    ∀ x ∈ run_length_encode v, x < 256 :=
  rle_fold_lt v [] hv (by simp)

/-- `Program::base64` applied to the node byte array. -/
def program_base64 (nodes : List ℕ) : List ℕ :=
  base64_encode (run_length_encode nodes)

/-- `Program::from_base64`, yielding the node byte array. -/
def program_from_base64 (s : List ℕ) : List ℕ :=
  run_length_decode (base64_decode s)

set_option maxRecDepth 8192 in
/-- C7 counterexample: the round trip `run_length_decode ∘ run_length_encode`
fails on a vector of 256 equal bytes: the encoder stores the pair `(7, 255)`
and the decoder's `u8` increment wraps `255 + 1` to `0`, yielding the empty
vector instead of the original 256 bytes. -/
theorem c7_rle_ctrex :
    run_length_decode (run_length_encode (List.replicate 256 7)) ≠ List.replicate 256 7 := by
  decide

/-- C7 (amended): serialization round-trips for byte vectors none of whose
runs of equal bytes is longer than 255 (the counterexample forces this bound:
a run of 256 stores count 255, which the decoder's wrapping `u8` increment
turns into 0 copies).  The RLE example holds as stated, and base64-encoded
program serialization round-trips byte-for-byte under the same run bound. -/
theorem c7_serialization_amended :
    (∀ v : List ℕ, runs_ok v = true → run_length_decode (run_length_encode v) = v)
      ∧ run_length_encode [1, 2, 3, 3, 3] = [1, 0, 2, 0, 3, 2]
      ∧ (∀ nodes : List ℕ, (∀ b ∈ nodes, b < 256) → runs_ok nodes = true →
          program_from_base64 (program_base64 nodes) = nodes) := by
  refine ⟨rle_round_trip, by decide, ?_⟩
  intro nodes hb hruns
  unfold program_from_base64 program_base64
  rw [base64_round_trip (run_length_encode nodes) (run_length_encode_lt nodes hb)]
  exact rle_round_trip nodes hruns

/-- Witness for C7's amended theorem at the spec's concrete RLE example. -/
theorem c7_serialization_amended_witness :
    run_length_decode (run_length_encode [1, 2, 3, 3, 3]) = [1, 2, 3, 3, 3]
      ∧ program_from_base64 (program_base64 [1, 2, 3, 3, 3]) = [1, 2, 3, 3, 3] :=
  ⟨c7_serialization_amended.1 [1, 2, 3, 3, 3] (by decide),
   c7_serialization_amended.2.2 [1, 2, 3, 3, 3] (by decide) (by decide)⟩

/-! ## Simulation model (src/sim/mod.rs)

`f32` square root is the parameter `sq`; the routing and sequencing program
evaluations are the parameters `rval` and `sval` (pure functions of the data
the source's contexts capture: time, vehicle state, request, ready time). -/

/-- Default request value, for `getD` reads at positions the invariants keep
in bounds (the source would panic there). -/
def defReq : Request :=
  { idx := 0, x := 0, y := 0, demand := 0, open_t := 0, close := 0,
    service_time := 0, time := 0 }

instance : Inhabited Request := ⟨defReq⟩

/-- Per-truck runtime state (src/sim/mod.rs `VehicleState`).  The `route` and
`dropped` logs are `BTreeMap<i32, usize>` in the source, modelled as key-unique
association lists. -/
structure VehicleState where
  cur_request : Request
  queue : List (Request × ℚ)
  total_demand : ℚ
  busy_until : ℚ
  route : List (ℤ × ℕ)
  dropped : List (ℤ × ℕ)
deriving DecidableEq

instance : Inhabited VehicleState :=
  ⟨{ cur_request := defReq, queue := [], total_demand := 0, busy_until := 0,
     route := [], dropped := [] }⟩

/-- `VehicleState::new`. -/
def VehicleState.new (problem : Problem) : VehicleState :=
  { cur_request := problem.depot, queue := [], total_demand := problem.truck_capacity,
    busy_until := 0, route := [], dropped := [] }

/-- `f32::max`, in executable form (`if`-based so that concrete states
evaluate by rewriting). -/
def maxQ (a b : ℚ) : ℚ :=
  if a ≤ b then b else a

/-- `VehicleState::dist`. -/
def distF (sq : ℚ → ℚ) (x y : ℚ) : ℚ :=
  sq (x * x + y * y)

/-- `VehicleState::distance_to`. -/
def distance_to (sq : ℚ → ℚ) (v : VehicleState) (request : Request) : ℚ :=
  distF sq (v.cur_request.x - request.x) (v.cur_request.y - request.y)

/-- `VehicleState::time_cost`: travel time floored by waiting for the window
to open. -/
def time_cost (sq : ℚ → ℚ) (problem : Problem) (v : VehicleState) (req : Request)
    (time : ℚ) : ℚ :=
  maxQ (distance_to sq v req / problem.truck_speed) (req.open_t - time)

/-- `VehicleState::raw_time_cost`: travel time ignoring the wait. -/
def raw_time_cost (sq : ℚ → ℚ) (problem : Problem) (v : VehicleState) (req : Request) : ℚ :=
  distance_to sq v req / problem.truck_speed

/-- `VehicleState::enqueue`. -/
def VehicleState.enqueue (v : VehicleState) (request : Request) (time : ℚ) : VehicleState :=
  { v with queue := v.queue ++ [(request, time)] }

/-- Insertion into a sorted list of rationals. -/
def insert_sorted (x : ℚ) : List ℚ → List ℚ
  | [] => [x]
  | y :: rest => if x ≤ y then x :: y :: rest else y :: insert_sorted x rest

/-- Ascending sort (the source sorts by `OrderedFloat`). -/
def sortQ : List ℚ → List ℚ
  | [] => []
  | x :: rest => insert_sorted x (sortQ rest)

/-- `VehicleState::median`: 0 on empty input, middle element for odd length,
mean of the two middles for even length. -/
def medianQ (l : List ℚ) : ℚ :=
  let s := sortQ l
  if s.length = 0 then 0
  else if s.length % 2 = 1 then s.getD (s.length / 2) 0
  else (s.getD (s.length / 2) 0 + s.getD (s.length / 2 - 1) 0) / 2

/-- `VehicleState::median_queue_pos`. -/
def median_queue_pos (v : VehicleState) : ℚ × ℚ :=
  (medianQ (v.queue.map (fun r => r.1.x)), medianQ (v.queue.map (fun r => r.1.y)))

/-- Rust `as i32` on an `f32` value: truncation toward zero. -/
def to_i32 (q : ℚ) : ℤ :=
  q.num / (q.den : ℤ)

/-- `BTreeMap::insert`: replaces the entry at an existing key, adds otherwise. -/
def btree_insert (m : List (ℤ × ℕ)) (k : ℤ) (v : ℕ) : List (ℤ × ℕ) :=
  m.filter (fun e => e.1 ≠ k) ++ [(k, v)]

/-- Simulation events (src/sim/mod.rs `Event`). -/
inductive Event where
  | requests (rs : List Request) (time : ℚ)
  | vehicleFinish (vehicle : ℕ) (request : Request) (time : ℚ)
deriving DecidableEq

/-- `Event::time`. -/
def Event.time : Event → ℚ
  | .requests _ t => t
  | .vehicleFinish _ _ t => t

/-- The simulator state (src/sim/mod.rs `Simulation`, plus the loop-local
distance/failure accumulators of `simulate_until`).  The event heap is a list
popped at a minimal-time element. -/
structure SimState where
  time : ℚ
  vehicles : List VehicleState
  events : List Event
  total_distance : ℚ
  total_failed : ℕ
deriving DecidableEq

/-- `Simulation::route_vehicle_to`: accumulate the distance, compute the
finish time, refill at the depot (index 0) or subtract the demand, push a
`VehicleFinish` event, log `(start_time as i32, r.idx)`, and update the
vehicle's position and `busy_until`. -/
def route_vehicle_to (sq : ℚ → ℚ) (problem : Problem) (s : SimState) (vehicle : ℕ)
    (request : Request) : SimState :=
  let state := s.vehicles.getD vehicle default
  let distance := distance_to sq state request
  let time := maxQ (s.time + distance / problem.truck_speed) request.open_t
      + request.service_time
  let state' :=
    if request.idx = 0 then { state with total_demand := problem.truck_capacity }
    else { state with total_demand := state.total_demand - request.demand }
  let state2 :=
    { state' with
      route := btree_insert state'.route (to_i32 (time - request.service_time)) request.idx,
      cur_request := request,
      busy_until := time }
  { s with
    total_distance := s.total_distance + distance,
    vehicles := s.vehicles.set vehicle state2,
    events := s.events ++ [Event.vehicleFinish vehicle request time] }

/-- The concrete initial state used by the C9 counterexample: one fresh
vehicle at a depot at the origin. -/
def c9_problem : Problem :=
  { depot := defReq, requests := [], truck_speed := 1, truck_capacity := 5,
    num_trucks := 1 }

def c9_state : SimState :=
  { time := 0, vehicles := [VehicleState.new c9_problem], events := [],
    total_distance := 0, total_failed := 0 }

def c9_req1 : Request :=
  { idx := 1, x := 0, y := 0, demand := 0, open_t := 0, close := 10,
    service_time := 0, time := 0 }

def c9_req2 : Request :=
  { idx := 2, x := 0, y := 0, demand := 0, open_t := 0, close := 10,
    service_time := 0, time := 0 }

/-- C9 counterexample: the route log is a `BTreeMap` keyed by the truncated
(`as i32`) start time, so two dispatches whose start times truncate to the
same key overwrite each other.  Dispatching requests 1 and 2 (both at distance
0, with zero service time) leaves ONE log entry, not two, and the entry
`(0, 1)` recorded by the first dispatch has been removed. -/
theorem c9_route_log_ctrex :
    (((route_vehicle_to (fun q => q) c9_problem
          (route_vehicle_to (fun q => q) c9_problem c9_state 0 c9_req1) 0 c9_req2).vehicles.getD
        0 default).route).length = 1
      ∧ ((0 : ℤ), (1 : ℕ)) ∉
          ((route_vehicle_to (fun q => q) c9_problem
              (route_vehicle_to (fun q => q) c9_problem c9_state 0 c9_req1) 0
              c9_req2).vehicles.getD 0 default).route := by
  norm_num [route_vehicle_to, c9_problem, c9_state, c9_req1, c9_req2, defReq,
    VehicleState.new, btree_insert, to_i32, maxQ, distance_to, distF]

/-- C9 (amended): every `route_vehicle_to` call inserts the entry
`(start_time as i32, r.idx)`; an existing entry is overwritten exactly when it
shares the truncated start-time key, so whenever the new key is fresh the log
is append-only: it grows by one entry and every previously recorded entry
survives.  After `n` dispatches with pairwise distinct truncated start times
the log therefore holds `n` entries. -/
theorem getD_set_self {α : Type} [Inhabited α] (l : List α) (i : ℕ) (a : α)
    (h : i < l.length) : (l.set i a).getD i default = a := by
  rw [List.getD_eq_getElem?_getD, List.getElem?_set_self (by simpa using h)]
  rfl

theorem c9_route_log_amended (sq : ℚ → ℚ) (problem : Problem) (s : SimState)
    (vehicle : ℕ) (request : Request) (hv : vehicle < s.vehicles.length)
    (hfresh : ∀ e ∈ (s.vehicles.getD vehicle default).route,
      e.1 ≠ to_i32 (maxQ (s.time
          + distance_to sq (s.vehicles.getD vehicle default) request / problem.truck_speed)
        request.open_t)) :
    (((route_vehicle_to sq problem s vehicle request).vehicles.getD vehicle default).route).length
        = ((s.vehicles.getD vehicle default).route).length + 1
      ∧ ∀ e ∈ (s.vehicles.getD vehicle default).route,
          e ∈ ((route_vehicle_to sq problem s vehicle request).vehicles.getD
            vehicle default).route := by
  have hroute : ((route_vehicle_to sq problem s vehicle request).vehicles.getD
        vehicle default).route
      = btree_insert (s.vehicles.getD vehicle default).route
          (to_i32 (maxQ (s.time
              + distance_to sq (s.vehicles.getD vehicle default) request
                / problem.truck_speed) request.open_t))
          request.idx := by
    by_cases hidx : request.idx = 0
    · simp only [route_vehicle_to, hidx, if_pos]
      rw [getD_set_self _ _ _ (by simpa using hv)]
      rw [add_sub_cancel_right]
    · simp only [route_vehicle_to, hidx, if_neg, if_false]
      rw [getD_set_self _ _ _ (by simpa using hv)]
      rw [add_sub_cancel_right]
  rw [hroute]
  unfold btree_insert
  rw [List.filter_eq_self.mpr (fun e he => by simpa using hfresh e he)]
  constructor
  · simp
  · intro e he
    simp only [List.mem_append, List.mem_singleton]
    exact Or.inl (by simpa [List.getD_eq_getElem?_getD] using he)

/-- Witness for C9's amended theorem: a first dispatch into an empty log. -/
theorem c9_route_log_amended_witness :
    (((route_vehicle_to (fun q => q) c9_problem c9_state 0 c9_req1).vehicles.getD
        0 default).route).length = 1 := by
  have h := c9_route_log_amended (fun q => q) c9_problem c9_state 0 c9_req1
    (by norm_num [c9_state])
    (by norm_num [c9_state, VehicleState.new, c9_problem])
  simpa [c9_state, VehicleState.new, c9_problem] using h.1

/-! ## Routing and sequencing rules (src/sim/mod.rs) -/

/-- One step of Rust's `Iterator::min_by_key` fold (strict `<` keeps the
FIRST element among equal keys). -/
def min_step (f : ℕ → ℚ) (acc : Option ℕ) (i : ℕ) : Option ℕ :=
  match acc with
  | none => some i
  | some b => if f i < f b then some i else acc

/-- Rust `Iterator::min_by_key`: the first element attaining the minimal key. -/
def min_by_key_first (f : ℕ → ℚ) (l : List ℕ) : Option ℕ :=
  l.foldl (min_step f) none

theorem min_by_key_first_fold_some (f : ℕ → ℚ) :
    ∀ (l : List ℕ) (b : ℕ),
      ∃ x, List.foldl (min_step f) (some b) l = some x
        ∧ (x = b ∨ x ∈ l) ∧ f x ≤ f b ∧ ∀ y ∈ l, f x ≤ f y
  | [], b => ⟨b, rfl, Or.inl rfl, le_refl _, by simp⟩
  | i :: rest, b => by
      rw [List.foldl_cons]
      by_cases h : f i < f b
      · obtain ⟨x, hfold, hmem, hle, hall⟩ := min_by_key_first_fold_some f rest i
        have hstep : min_step f (some b) i = some i := by simp [min_step, h]
        refine ⟨x, by rw [hstep]; exact hfold, ?_, ?_, ?_⟩
        · rcases hmem with rfl | hx
          · exact Or.inr (by simp)
          · exact Or.inr (by simp [hx])
        · exact le_of_lt (lt_of_le_of_lt hle h)
        · intro y hy
          rcases List.mem_cons.mp hy with rfl | hy
          · exact hle
          · exact hall y hy
      · obtain ⟨x, hfold, hmem, hle, hall⟩ := min_by_key_first_fold_some f rest b
        have hstep : min_step f (some b) i = some b := by simp [min_step, h]
        refine ⟨x, by rw [hstep]; exact hfold, ?_, hle, ?_⟩
        · rcases hmem with rfl | hx
          · exact Or.inl rfl
          · exact Or.inr (by simp [hx])
        · intro y hy
          rcases List.mem_cons.mp hy with rfl | hy
          · exact le_trans hle (not_lt.mp h)
          · exact hall y hy

theorem min_by_key_first_spec (f : ℕ → ℚ) (l : List ℕ) (x : ℕ)
    (h : min_by_key_first f l = some x) : x ∈ l ∧ ∀ y ∈ l, f x ≤ f y := by
  match l with
  | [] => simp [min_by_key_first] at h
  | i :: rest =>
      unfold min_by_key_first at h
      rw [List.foldl_cons] at h
      have hstep : min_step f none i = some i := rfl
      rw [hstep] at h
      obtain ⟨z, hfold, hmem, hle, hall⟩ := min_by_key_first_fold_some f rest i
      rw [hfold] at h
      obtain rfl : z = x := by injection h
      refine ⟨?_, ?_⟩
      · rcases hmem with rfl | hz
        · simp
        · simp [hz]
      · intro y hy
        rcases List.mem_cons.mp hy with rfl | hy
        · exact hle
        · exact hall y hy

theorem min_by_key_first_eq_none (f : ℕ → ℚ) (l : List ℕ) :
    min_by_key_first f l = none ↔ l = [] := by
  match l with
  | [] => simp [min_by_key_first]
  | i :: rest =>
      simp only [min_by_key_first, List.foldl_cons]
      have hstep : min_step f none i = some i := rfl
      rw [hstep]
      obtain ⟨z, hfold, _, _, _⟩ := min_by_key_first_fold_some f rest i
      rw [hfold]
      simp

/-- `RoutingProgram::route_request`: filter the vehicle indices that can still
reach the request inside its window ignoring the wait, then take the first
vehicle minimizing the routing program's value (`rval`). -/
def route_request (sq : ℚ → ℚ) (rval : ℚ → VehicleState → Request → ℚ)
    (problem : Problem) (time : ℚ) (vehicles : List VehicleState)
    (request : Request) : Option ℕ :=
  min_by_key_first (fun v => rval time (vehicles.getD v default) request)
    ((List.range vehicles.length).filter
      (fun v => decide (time + raw_time_cost sq problem (vehicles.getD v default) request
        ≤ request.close)))

/-- `Simulation::handle_request`: enqueue on the routed vehicle, or count the
request as failed. -/
def handle_request (sq : ℚ → ℚ) (rval : ℚ → VehicleState → Request → ℚ)
    (problem : Problem) (s : SimState) (request : Request) : SimState :=
  match route_request sq rval problem s.time s.vehicles request with
  | some vehicle =>
      let v := (s.vehicles.getD vehicle default).enqueue request s.time
      { s with vehicles := s.vehicles.set vehicle v }
  | none => { s with total_failed := s.total_failed + 1 }

/-- C4: `route_request` returns a vehicle iff some vehicle passes the
time-window filter `t + raw_time_cost(v, r) ≤ r.close`; any returned vehicle
passes the filter and minimizes the routing program's value among the
qualifying vehicles; and when no vehicle qualifies, `handle_request` only
increments the failure counter, leaving every vehicle (queue, position,
remaining capacity, `busy_until`), the clock and the heap unchanged. -/
theorem c4_route_request_spec (sq : ℚ → ℚ) (rval : ℚ → VehicleState → Request → ℚ)
    (problem : Problem) (request : Request) :
    (∀ (time : ℚ) (vehicles : List VehicleState),
        (route_request sq rval problem time vehicles request).isSome
          ↔ ∃ v, v < vehicles.length
              ∧ time + raw_time_cost sq problem (vehicles.getD v default) request
                ≤ request.close)
      ∧ (∀ (time : ℚ) (vehicles : List VehicleState) (v : ℕ),
          route_request sq rval problem time vehicles request = some v →
            v < vehicles.length
              ∧ time + raw_time_cost sq problem (vehicles.getD v default) request
                ≤ request.close
              ∧ ∀ w, w < vehicles.length →
                  time + raw_time_cost sq problem (vehicles.getD w default) request
                    ≤ request.close →
                  rval time (vehicles.getD v default) request
                    ≤ rval time (vehicles.getD w default) request)
      ∧ (∀ s : SimState,
          route_request sq rval problem s.time s.vehicles request = none →
            handle_request sq rval problem s request
              = { s with total_failed := s.total_failed + 1 }) := by
  refine ⟨?_, ?_, ?_⟩
  · intro time vehicles
    rw [Option.isSome_iff_ne_none, ne_eq, route_request,
      min_by_key_first_eq_none, List.filter_eq_nil_iff]
    push_neg
    constructor
    · rintro ⟨v, hv, hcond⟩
      exact ⟨v, List.mem_range.mp hv, of_decide_eq_true hcond⟩
    · rintro ⟨v, hv, hcond⟩
      exact ⟨v, List.mem_range.mpr hv, by simpa using hcond⟩
  · intro time vehicles v h
    obtain ⟨hmem, hmin⟩ := min_by_key_first_spec _ _ _ h
    obtain ⟨hrange, hcond⟩ := List.mem_filter.mp hmem
    refine ⟨List.mem_range.mp hrange, of_decide_eq_true hcond, ?_⟩
    intro w hw hcw
    exact hmin w (List.mem_filter.mpr ⟨List.mem_range.mpr hw, decide_eq_true hcw⟩)
  · intro s h
    unfold handle_request
    rw [h]

def c4_problem : Problem :=
  { depot := defReq, requests := [], truck_speed := 1, truck_capacity := 5,
    num_trucks := 1 }

def c4_state : SimState :=
  { time := 0, vehicles := [VehicleState.new c4_problem], events := [],
    total_distance := 0, total_failed := 0 }

/-- A request whose window closed before time 0: no vehicle qualifies. -/
def c4_req : Request :=
  { idx := 1, x := 0, y := 0, demand := 0, open_t := -2, close := -1,
    service_time := 0, time := 0 }

/-- Witness for C4: with the lone vehicle unable to meet the window,
`route_request` returns `None` and `handle_request` increments the failure
counter, leaving the state otherwise unchanged. -/
theorem c4_route_request_spec_witness :
    handle_request (fun q => q) (fun _ _ _ => 0) c4_problem c4_state c4_req
      = { c4_state with total_failed := c4_state.total_failed + 1 } :=
  (c4_route_request_spec (fun q => q) (fun _ _ _ => 0) c4_problem c4_req).2.2 c4_state
    (by norm_num [route_request, min_by_key_first, min_step, raw_time_cost, distance_to,
      distF, defReq, c4_state, c4_problem, c4_req, VehicleState.new,
      List.range_succ, List.range_zero, List.filter])

/-! ## Queue service (src/sim/mod.rs `sequence_request`, `update_vehicle_queue`) -/

/-- Lookup in the per-sweep sequencing score cache (keyed by request index). -/
def cache_lookup (cache : List (ℕ × ℚ)) (k : ℕ) : Option ℚ :=
  (cache.find? (fun e => e.1 == k)).map (fun e => e.2)

/-- `SequencingProgram::sequence_request`: `min_by_key` over the queue
positions, memoizing the sequencing program's value (`sval`, a function of
time, vehicle state, request and ready time) per request index.  Returns the
chosen queue position together with the extended cache. -/
def sequence_request (sval : ℚ → VehicleState → Request → ℚ → ℚ) (time : ℚ)
    (v : VehicleState) (cache : List (ℕ × ℚ)) : Option ℕ × List (ℕ × ℚ) :=
  let step := fun (st : Option (ℕ × ℚ) × List (ℕ × ℚ)) (i : ℕ) =>
    let entry := v.queue.getD i default
    let (value, cache') :=
      match cache_lookup st.2 entry.1.idx with
      | some x => (x, st.2)
      | none =>
          let x := sval time v entry.1 entry.2
          (x, st.2 ++ [(entry.1.idx, x)])
    match st.1 with
    | none => (some (i, value), cache')
    | some (bi, bv) => if value < bv then (some (i, value), cache') else (some (bi, bv), cache')
  let r := (List.range v.queue.length).foldl step (none, cache)
  (r.1.map (fun p => p.1), r.2)

/-- `Simulation::swap_remove` on a vehicle queue (Rust `Vec::swap_remove`):
replace position `i` with the last element, then drop the last. -/
def swap_remove (l : List (Request × ℚ)) (i : ℕ) : List (Request × ℚ) :=
  (l.set i (l.getD (l.length - 1) default)).dropLast

/-- The body of `update_vehicle_queue`'s `while let` loop.  The loop need not
terminate (a request with `open > close` can be re-offered to the same vehicle
forever), so the recursion is fuel-indexed; `fuel = 0` stops the sweep. -/
def uvq_go (sq : ℚ → ℚ) (rval : ℚ → VehicleState → Request → ℚ)
    (sval : ℚ → VehicleState → Request → ℚ → ℚ) (problem : Problem) :
    ℕ → SimState → ℕ → List (ℕ × ℚ) → SimState
  | 0, s, _, _ => s
  | fuel + 1, s, vehicle, cache =>
      let r := sequence_request sval s.time (s.vehicles.getD vehicle default) cache
      match r.1 with
      | none => s
      | some index =>
          let vstate := s.vehicles.getD vehicle default
          let request := (vstate.queue.getD index default).1
          if vstate.total_demand < request.demand then
            route_vehicle_to sq problem s vehicle problem.depot
          else
            let vq := { vstate with queue := swap_remove vstate.queue index }
            let s' := { s with vehicles := s.vehicles.set vehicle vq }
            let start_time := s.time + time_cost sq problem vstate request s.time
            if request.close < start_time then
              uvq_go sq rval sval problem fuel (handle_request sq rval problem s' request)
                vehicle r.2
            else
              route_vehicle_to sq problem s' vehicle request

/-- `Simulation::update_vehicle_queue`: skip busy vehicles, then run the
dispatch loop with a fresh score cache. -/
def update_vehicle_queue (sq : ℚ → ℚ) (rval : ℚ → VehicleState → Request → ℚ)
    (sval : ℚ → VehicleState → Request → ℚ → ℚ) (problem : Problem)
    (fuel : ℕ) (s : SimState) (vehicle : ℕ) : SimState :=
  if s.time < (s.vehicles.getD vehicle default).busy_until then s
  else uvq_go sq rval sval problem fuel s vehicle []

/-- C5: when a free vehicle's sequencing rule picks a queue entry whose demand
strictly exceeds the remaining capacity, the sweep routes the vehicle to the
depot and stops: the whole sweep equals the single `route_vehicle_to` depot
dispatch, the remaining capacity is restored to the full truck capacity, and
the vehicle's queue — the picked entry included — is untouched. -/
theorem c5_depot_refill (sq : ℚ → ℚ) (rval : ℚ → VehicleState → Request → ℚ)
    (sval : ℚ → VehicleState → Request → ℚ → ℚ) (problem : Problem)
    (fuel : ℕ) (s : SimState) (vehicle index : ℕ)
    (hdep : problem.depot.idx = 0)
    (hv : vehicle < s.vehicles.length)
    (hfree : ¬ s.time < (s.vehicles.getD vehicle default).busy_until)
    (hseq : (sequence_request sval s.time (s.vehicles.getD vehicle default) []).1
      = some index)
    (hdem : (s.vehicles.getD vehicle default).total_demand
      < (((s.vehicles.getD vehicle default).queue.getD index default).1).demand) :
    update_vehicle_queue sq rval sval problem (fuel + 1) s vehicle
        = route_vehicle_to sq problem s vehicle problem.depot
      ∧ ((update_vehicle_queue sq rval sval problem (fuel + 1) s vehicle).vehicles.getD
          vehicle default).total_demand = problem.truck_capacity
      ∧ ((update_vehicle_queue sq rval sval problem (fuel + 1) s vehicle).vehicles.getD
          vehicle default).queue = (s.vehicles.getD vehicle default).queue := by
  have heq : update_vehicle_queue sq rval sval problem (fuel + 1) s vehicle
      = route_vehicle_to sq problem s vehicle problem.depot := by
    unfold update_vehicle_queue
    rw [if_neg hfree]
    unfold uvq_go
    simp only [hseq]
    rw [if_pos hdem]
  refine ⟨heq, ?_, ?_⟩
  · rw [heq]
    unfold route_vehicle_to
    simp only []
    rw [getD_set_self _ _ _ (by simpa using hv)]
    simp [hdep]
  · rw [heq]
    unfold route_vehicle_to
    simp only []
    rw [getD_set_self _ _ _ (by simpa using hv)]
    simp [hdep]

def c5_problem : Problem :=
  { depot := defReq, requests := [], truck_speed := 1, truck_capacity := 1,
    num_trucks := 1 }

def c5_req : Request :=
  { idx := 1, x := 0, y := 0, demand := 2, open_t := 0, close := 10,
    service_time := 0, time := 0 }

def c5_state : SimState :=
  { time := 0, vehicles := [(VehicleState.new c5_problem).enqueue c5_req 0], events := [],
    total_distance := 0, total_failed := 0 }

/-- Witness for C5: a free vehicle with capacity 1 whose queue holds a demand-2
request is routed to the depot with its capacity restored and queue intact. -/
theorem c5_depot_refill_witness :
    ((update_vehicle_queue (fun q => q) (fun _ _ _ => 0) (fun _ _ _ _ => 0) c5_problem 1
          c5_state 0).vehicles.getD 0 default).total_demand = c5_problem.truck_capacity
      ∧ ((update_vehicle_queue (fun q => q) (fun _ _ _ => 0) (fun _ _ _ _ => 0) c5_problem 1
          c5_state 0).vehicles.getD 0 default).queue
        = (c5_state.vehicles.getD 0 default).queue := by
  have h := c5_depot_refill (fun q => q) (fun _ _ _ => 0) (fun _ _ _ _ => 0) c5_problem 0
    c5_state 0 0 rfl (by norm_num [c5_state])
    (by norm_num [c5_state, VehicleState.new, VehicleState.enqueue, c5_problem, defReq])
    (by norm_num [sequence_request, cache_lookup, c5_state, VehicleState.new,
      VehicleState.enqueue, c5_problem, c5_req, defReq, List.range_succ, List.range_zero])
    (by norm_num [c5_state, VehicleState.new, VehicleState.enqueue, c5_problem, c5_req,
      defReq])
  exact ⟨h.2.1, h.2.2⟩

/-! ## The main event loop (src/sim/mod.rs `Simulation::simulate_until`) -/

/-- `BinaryHeap::pop` on the min-heap of events: removes a minimal-time event
(the source's tie order is unspecified; the model takes the first). -/
def pop_min_event : List Event → Option (Event × List Event)
  | [] => none
  | e :: rest =>
      match pop_min_event rest with
      | none => some (e, [])
      | some (m, rest') => if e.time ≤ m.time then some (e, rest) else some (m, e :: rest')

/-- Event dispatch of the main loop: a `Requests` batch routes each request in
order; `VehicleFinish` only logs. -/
def handle_event (sq : ℚ → ℚ) (rval : ℚ → VehicleState → Request → ℚ)
    (problem : Problem) (s : SimState) : Event → SimState
  | .requests rs _ => rs.foldl (fun st r => handle_request sq rval problem st r) s
  | .vehicleFinish _ _ _ => s

/-- The queue-service sweep over all vehicles, in ascending index order. -/
def sweep_vehicles (sq : ℚ → ℚ) (rval : ℚ → VehicleState → Request → ℚ)
    (sval : ℚ → VehicleState → Request → ℚ → ℚ) (problem : Problem)
    (fuel : ℕ) (s : SimState) : SimState :=
  (List.range problem.num_trucks).foldl
    (fun st v => update_vehicle_queue sq rval sval problem fuel st v) s

/-- One iteration of the main loop: pop the earliest event; halt (`none`) when
the heap is empty or the event lies beyond `time_max`; otherwise advance the
clock, dispatch the event and sweep every vehicle.  `fuel` bounds the inner
`while let` loops, which the main-loop claims quantify over. -/
def sim_step (sq : ℚ → ℚ) (rval : ℚ → VehicleState → Request → ℚ)
    (sval : ℚ → VehicleState → Request → ℚ → ℚ) (problem : Problem)
    (fuel : ℕ) (time_max : ℚ) (s : SimState) : Option SimState :=
  match pop_min_event s.events with
  | none => none
  | some (e, rest) =>
      if time_max < e.time then none
      else some (sweep_vehicles sq rval sval problem fuel
        (handle_event sq rval problem { s with time := e.time, events := rest } e))

/-- Run `n` main-loop iterations; `some s'` means the loop is still running
after `n` iterations, `none` that it halted within them. -/
def run_trace (sq : ℚ → ℚ) (rval : ℚ → VehicleState → Request → ℚ)
    (sval : ℚ → VehicleState → Request → ℚ → ℚ) (problem : Problem)
    (fuel : ℕ) (time_max : ℚ) : ℕ → SimState → Option SimState
  | 0, s => some s
  | n + 1, s =>
      match sim_step sq rval sval problem fuel time_max s with
      | none => none
      | some s' => run_trace sq rval sval problem fuel time_max n s'

/-! Push counting: every event push goes through `route_vehicle_to` (exactly
one push per call).  The following counters mirror the control flow of the
sweep and count those calls. -/

/-- Pushes performed by `uvq_go`. -/
def uvq_go_count (sq : ℚ → ℚ) (rval : ℚ → VehicleState → Request → ℚ)
    (sval : ℚ → VehicleState → Request → ℚ → ℚ) (problem : Problem) :
    ℕ → SimState → ℕ → List (ℕ × ℚ) → ℕ
  | 0, _, _, _ => 0
  | fuel + 1, s, vehicle, cache =>
      let r := sequence_request sval s.time (s.vehicles.getD vehicle default) cache
      match r.1 with
      | none => 0
      | some index =>
          let vstate := s.vehicles.getD vehicle default
          let request := (vstate.queue.getD index default).1
          if vstate.total_demand < request.demand then 1
          else
            let vq := { vstate with queue := swap_remove vstate.queue index }
            let s' := { s with vehicles := s.vehicles.set vehicle vq }
            let start_time := s.time + time_cost sq problem vstate request s.time
            if request.close < start_time then
              uvq_go_count sq rval sval problem fuel
                (handle_request sq rval problem s' request) vehicle r.2
            else 1

/-- Pushes performed by `update_vehicle_queue`. -/
def uvq_count (sq : ℚ → ℚ) (rval : ℚ → VehicleState → Request → ℚ)
    (sval : ℚ → VehicleState → Request → ℚ → ℚ) (problem : Problem)
    (fuel : ℕ) (s : SimState) (vehicle : ℕ) : ℕ :=
  if s.time < (s.vehicles.getD vehicle default).busy_until then 0
  else uvq_go_count sq rval sval problem fuel s vehicle []

/-- Pushes performed by the sweep. -/
def sweep_count (sq : ℚ → ℚ) (rval : ℚ → VehicleState → Request → ℚ)
    (sval : ℚ → VehicleState → Request → ℚ → ℚ) (problem : Problem)
    (fuel : ℕ) (s : SimState) : ℕ :=
  ((List.range problem.num_trucks).foldl
    (fun (p : SimState × ℕ) v =>
      (update_vehicle_queue sq rval sval problem fuel p.1 v,
        p.2 + uvq_count sq rval sval problem fuel p.1 v))
    (s, 0)).2

/-- Pushes performed by one main-loop iteration. -/
def step_count (sq : ℚ → ℚ) (rval : ℚ → VehicleState → Request → ℚ)
    (sval : ℚ → VehicleState → Request → ℚ → ℚ) (problem : Problem)
    (fuel : ℕ) (time_max : ℚ) (s : SimState) : ℕ :=
  match pop_min_event s.events with
  | none => 0
  | some (e, rest) =>
      if time_max < e.time then 0
      else sweep_count sq rval sval problem fuel
        (handle_event sq rval problem { s with time := e.time, events := rest } e)

/-- Pushes performed along the first `n` iterations of a run. -/
def run_count (sq : ℚ → ℚ) (rval : ℚ → VehicleState → Request → ℚ)
    (sval : ℚ → VehicleState → Request → ℚ → ℚ) (problem : Problem)
    (fuel : ℕ) (time_max : ℚ) : ℕ → SimState → ℕ
  | 0, _ => 0
  | n + 1, s =>
      match sim_step sq rval sval problem fuel time_max s with
      | none => 0
      | some s' => step_count sq rval sval problem fuel time_max s
          + run_count sq rval sval problem fuel time_max n s'

theorem handle_request_events (sq : ℚ → ℚ) (rval : ℚ → VehicleState → Request → ℚ)
    (problem : Problem) (s : SimState) (request : Request) :
    (handle_request sq rval problem s request).events = s.events := by
  unfold handle_request
  match route_request sq rval problem s.time s.vehicles request with
  | some v => rfl
  | none => rfl

theorem route_vehicle_to_events (sq : ℚ → ℚ) (problem : Problem) (s : SimState)
    (vehicle : ℕ) (request : Request) :
    (route_vehicle_to sq problem s vehicle request).events.length = s.events.length + 1 := by
  unfold route_vehicle_to
  simp

theorem uvq_go_events (sq : ℚ → ℚ) (rval : ℚ → VehicleState → Request → ℚ)
    (sval : ℚ → VehicleState → Request → ℚ → ℚ) (problem : Problem) :
    ∀ (fuel : ℕ) (s : SimState) (vehicle : ℕ) (cache : List (ℕ × ℚ)),
      (uvq_go sq rval sval problem fuel s vehicle cache).events.length
        = s.events.length + uvq_go_count sq rval sval problem fuel s vehicle cache
  | 0, s, vehicle, cache => rfl
  | fuel + 1, s, vehicle, cache => by
      unfold uvq_go uvq_go_count
      simp only []
      cases hseq : (sequence_request sval s.time (s.vehicles.getD vehicle default) cache).1 with
      | none => rfl
      | some index =>
          simp only []
          by_cases hd : (s.vehicles.getD vehicle default).total_demand
              < (((s.vehicles.getD vehicle default).queue.getD index default).1).demand
          · simp only [if_pos hd]
            rw [route_vehicle_to_events]
          · simp only [if_neg hd]
            by_cases hc : (((s.vehicles.getD vehicle default).queue.getD index default).1).close
                < s.time + time_cost sq problem (s.vehicles.getD vehicle default)
                  (((s.vehicles.getD vehicle default).queue.getD index default).1) s.time
            · simp only [if_pos hc]
              rw [uvq_go_events sq rval sval problem fuel, handle_request_events]
            · simp only [if_neg hc]
              rw [route_vehicle_to_events]

theorem uvq_events (sq : ℚ → ℚ) (rval : ℚ → VehicleState → Request → ℚ)
    (sval : ℚ → VehicleState → Request → ℚ → ℚ) (problem : Problem)
    (fuel : ℕ) (s : SimState) (vehicle : ℕ) :
    (update_vehicle_queue sq rval sval problem fuel s vehicle).events.length
      = s.events.length + uvq_count sq rval sval problem fuel s vehicle := by
  unfold update_vehicle_queue uvq_count
  split
  · rfl
  · exact uvq_go_events sq rval sval problem fuel s vehicle []

theorem sweep_events (sq : ℚ → ℚ) (rval : ℚ → VehicleState → Request → ℚ)
    (sval : ℚ → VehicleState → Request → ℚ → ℚ) (problem : Problem) (fuel : ℕ) :
    ∀ (l : List ℕ) (s : SimState) (c : ℕ),
      ((l.foldl
        (fun (p : SimState × ℕ) v =>
          (update_vehicle_queue sq rval sval problem fuel p.1 v,
            p.2 + uvq_count sq rval sval problem fuel p.1 v))
        (s, c)).1
        = l.foldl (fun st v => update_vehicle_queue sq rval sval problem fuel st v) s)
      ∧ ((l.foldl
        (fun (p : SimState × ℕ) v =>
          (update_vehicle_queue sq rval sval problem fuel p.1 v,
            p.2 + uvq_count sq rval sval problem fuel p.1 v))
        (s, c)).2 + s.events.length
        = c + (l.foldl (fun st v => update_vehicle_queue sq rval sval problem fuel st v)
            s).events.length)
  | [], s, c => by simp
  | v :: rest, s, c => by
      rw [List.foldl_cons, List.foldl_cons]
      simp only []
      obtain ⟨h1, h2⟩ := sweep_events sq rval sval problem fuel rest
        (update_vehicle_queue sq rval sval problem fuel s v)
        (c + uvq_count sq rval sval problem fuel s v)
      refine ⟨h1, ?_⟩
      have h3 := uvq_events sq rval sval problem fuel s v
      omega

theorem handle_event_events (sq : ℚ → ℚ) (rval : ℚ → VehicleState → Request → ℚ)
    (problem : Problem) (s : SimState) (e : Event) :
    (handle_event sq rval problem s e).events = s.events := by
  unfold handle_event
  match e with
  | .vehicleFinish v r t => rfl
  | .requests rs t =>
      simp only []
      clear e
      induction rs generalizing s with
      | nil => rfl
      | cons r rest ih =>
          rw [List.foldl_cons, ih, handle_request_events]

theorem pop_min_event_none : ∀ (l : List Event), pop_min_event l = none ↔ l = []
  | [] => by simp [pop_min_event]
  | x :: l => by
      unfold pop_min_event
      match pop_min_event l with
      | none => simp
      | some (m, rest') =>
          simp only []
          split <;> simp

theorem pop_min_event_length :
    ∀ (l : List Event) (e : Event) (rest : List Event),
      pop_min_event l = some (e, rest) → rest.length + 1 = l.length
  | [], e, rest => by simp [pop_min_event]
  | x :: l, e, rest => by
      unfold pop_min_event
      match hrec : pop_min_event l with
      | none =>
          have hl : l = [] := (pop_min_event_none l).mp hrec
          subst hl
          intro h
          injection h with h1
          rw [Prod.mk.injEq] at h1
          obtain ⟨rfl, rfl⟩ := h1
          simp
      | some (m, rest') =>
          simp only []
          split
          · intro h
            injection h with h1
            rw [Prod.mk.injEq] at h1
            obtain ⟨rfl, rfl⟩ := h1
            simp
          · intro h
            injection h with h1
            rw [Prod.mk.injEq] at h1
            obtain ⟨rfl, rfl⟩ := h1
            have := pop_min_event_length l m rest' hrec
            simp only [List.length_cons]
            omega

theorem sim_step_events (sq : ℚ → ℚ) (rval : ℚ → VehicleState → Request → ℚ)
    (sval : ℚ → VehicleState → Request → ℚ → ℚ) (problem : Problem)
    (fuel : ℕ) (time_max : ℚ) (s s' : SimState)
    (h : sim_step sq rval sval problem fuel time_max s = some s') :
    s'.events.length + 1
      = s.events.length + step_count sq rval sval problem fuel time_max s := by
  unfold sim_step step_count at *
  cases hpop : pop_min_event s.events with
  | none => rw [hpop] at h; exact absurd h (by simp)
  | some er =>
      obtain ⟨e, rest⟩ := er
      rw [hpop] at h
      simp only [] at h
      by_cases htm : time_max < e.time
      · rw [if_pos htm] at h
        exact absurd h (by simp)
      · rw [if_neg htm] at h
        injection h with h1
        subst h1
        simp only [if_neg htm]
        have hbase :
            (handle_event sq rval problem { s with time := e.time, events := rest } e).events
              = rest := handle_event_events sq rval problem _ e
        have hsw := (sweep_events sq rval sval problem fuel (List.range problem.num_trucks)
          (handle_event sq rval problem { s with time := e.time, events := rest } e) 0).2
        have hlen := pop_min_event_length s.events e rest hpop
        unfold sweep_vehicles sweep_count
        rw [hbase] at hsw
        omega

theorem run_trace_events (sq : ℚ → ℚ) (rval : ℚ → VehicleState → Request → ℚ)
    (sval : ℚ → VehicleState → Request → ℚ → ℚ) (problem : Problem)
    (fuel : ℕ) (time_max : ℚ) :
    ∀ (n : ℕ) (s s' : SimState),
      run_trace sq rval sval problem fuel time_max n s = some s' →
      n + s'.events.length
        = s.events.length + run_count sq rval sval problem fuel time_max n s
  | 0, s, s' => by
      intro h
      injection h with h1
      subst h1
      simp [run_count]
  | n + 1, s, s' => by
      intro h
      unfold run_trace at h
      unfold run_count
      cases hstep : sim_step sq rval sval problem fuel time_max s with
      | none => rw [hstep] at h; exact absurd h (by simp)
      | some s1 =>
          rw [hstep] at h
          simp only [] at h ⊢
          have hrec := run_trace_events sq rval sval problem fuel time_max n s1 s' h
          have hone := sim_step_events sq rval sval problem fuel time_max s s1 hstep
          omega

/-- C8 (amended): each main-loop iteration pops exactly one event from the
heap and pushes `step_count` many, so a run that is still going after `n`
iterations satisfies `n + |heap_n| = |heap_0| + pushes`.  Hence whenever the
number of events ever pushed is bounded by `N`, the loop halts within
`|heap_0| + N + 1` iterations — the loop terminates whenever only finitely
many events are ever pushed.  (For arbitrary problems with finite `time_max`
the loop need NOT terminate; see the counterexample.) -/
theorem c8_bounded_pushes_terminates (sq : ℚ → ℚ)
    (rval : ℚ → VehicleState → Request → ℚ)
    (sval : ℚ → VehicleState → Request → ℚ → ℚ) (problem : Problem)
    (fuel : ℕ) (time_max : ℚ) (s : SimState) (N : ℕ)
    (hN : ∀ n, run_count sq rval sval problem fuel time_max n s ≤ N) :
    run_trace sq rval sval problem fuel time_max (s.events.length + N + 1) s = none := by
  cases hrt : run_trace sq rval sval problem fuel time_max (s.events.length + N + 1) s with
  | none => rfl
  | some s' =>
      have h1 := run_trace_events sq rval sval problem fuel time_max
        (s.events.length + N + 1) s s' hrt
      have h2 := hN (s.events.length + N + 1)
      omega

def c8w_problem : Problem :=
  { depot := defReq, requests := [], truck_speed := 1, truck_capacity := 1,
    num_trucks := 0 }

def c8w_state : SimState :=
  { time := 0, vehicles := [], events := [], total_distance := 0, total_failed := 0 }

/-- Witness for C8's amended theorem: with an empty heap no event is ever
pushed, and the loop halts within one iteration. -/
theorem c8_bounded_pushes_terminates_witness :
    run_trace (fun q => q) (fun _ _ _ => 0) (fun _ _ _ _ => 0) c8w_problem 1 0
      (c8w_state.events.length + 0 + 1) c8w_state = none := by
  refine c8_bounded_pushes_terminates (fun q => q) (fun _ _ _ => 0) (fun _ _ _ _ => 0)
    c8w_problem 1 0 c8w_state 0 ?_
  intro n
  cases n with
  | zero => simp [run_count]
  | succ n => simp [run_count, sim_step, pop_min_event, c8w_state]

/-! ## Pre-loop of `simulate_until` and the C8 counterexample -/

/-- `(request.time / time_slot).ceil() as i32`: rational ceiling. -/
def ceilQ (q : ℚ) : ℤ :=
  -((-q).num / (((-q).den : ℤ)))

/-- Bucket customers by time-slot index (the source iterates a `HashMap`;
insertion order stands in for its arbitrary iteration order). -/
def bucket_requests (time_slot : ℚ) (requests : List Request) : List (ℤ × List Request) :=
  requests.foldl
    (fun acc r =>
      let k := ceilQ (r.time / time_slot)
      if (acc.find? (fun e => e.1 == k)).isSome then
        acc.map (fun e => if e.1 == k then (e.1, e.2 ++ [r]) else e)
      else acc ++ [(k, [r])])
    []

/-- The events pushed before the main loop: one `Requests` batch per bucket at
time `idx · Δ`. -/
def build_events (time_slot : ℚ) (problem : Problem) : List Event :=
  (bucket_requests time_slot problem.requests).map
    (fun e => Event.requests e.2 ((e.1 : ℚ) * time_slot))

/-- The state entering the main loop of `simulate_until`. -/
def init_state (problem : Problem) (time_slot : ℚ) : SimState :=
  { time := 0, vehicles := List.replicate problem.num_trucks (VehicleState.new problem),
    events := build_events time_slot problem, total_distance := 0, total_failed := 0 }

def c8_depot : Request :=
  { idx := 0, x := 0, y := 0, demand := 0, open_t := 0, close := 1000,
    service_time := 0, time := 0 }

def c8_req : Request :=
  { idx := 1, x := 0, y := 0, demand := 2, open_t := 0, close := 0,
    service_time := 0, time := 0 }

/-- A problem on which the main loop runs forever: one truck of capacity 1,
one request of demand 2 at the depot's position, and a depot with zero service
time.  The stuck request forces a depot round trip that advances neither the
clock nor the heap. -/
def c8_problem : Problem :=
  { depot := c8_depot, requests := [c8_req], truck_speed := 1, truck_capacity := 1,
    num_trucks := 1 }

/-- The vehicle state inside the loop's fixpoint. -/
def c8_fix_vehicle : VehicleState :=
  { cur_request := c8_depot, queue := [(c8_req, 0)], total_demand := 1,
    busy_until := 0, route := [((0 : ℤ), 0)], dropped := [] }

/-- The loop's fixpoint state: the request sits in the queue forever, and each
iteration pops and re-pushes the same zero-length depot trip at time 0. -/
def c8_fix : SimState :=
  { time := 0,
    vehicles := [c8_fix_vehicle],
    events := [Event.vehicleFinish 0 c8_depot 0],
    total_distance := 0, total_failed := 0 }

theorem c8_first_step :
    sim_step (fun q => q) (fun _ _ _ => 0) (fun _ _ _ _ => 0) c8_problem 1 1000
      (init_state c8_problem 1) = some c8_fix := by
  norm_num [sim_step, init_state, build_events, bucket_requests, ceilQ, c8_problem,
    c8_depot, c8_req, pop_min_event, handle_event, handle_request, route_request,
    min_by_key_first, min_step, raw_time_cost, distance_to, distF, VehicleState.new,
    VehicleState.enqueue, sweep_vehicles, List.range_succ, List.range_zero,
    update_vehicle_queue, uvq_go, sequence_request, cache_lookup, route_vehicle_to,
    btree_insert, to_i32, maxQ, c8_fix, c8_fix_vehicle, Event.time, List.find?]

theorem c8_fix_step :
    sim_step (fun q => q) (fun _ _ _ => 0) (fun _ _ _ _ => 0) c8_problem 1 1000
      c8_fix = some c8_fix := by
  norm_num [sim_step, c8_problem, c8_depot, c8_req, pop_min_event, handle_event,
    handle_request, route_request, min_by_key_first, min_step, raw_time_cost,
    distance_to, distF, sweep_vehicles, List.range_succ, List.range_zero,
    update_vehicle_queue, uvq_go, sequence_request, cache_lookup, route_vehicle_to,
    btree_insert, to_i32, maxQ, c8_fix, c8_fix_vehicle, Event.time, List.find?]

theorem c8_fix_forever :
    ∀ n, run_trace (fun q => q) (fun _ _ _ => 0) (fun _ _ _ _ => 0) c8_problem 1 1000
      n c8_fix = some c8_fix
  | 0 => rfl
  | n + 1 => by
      unfold run_trace
      rw [c8_fix_step]
      exact c8_fix_forever n

/-- C8 counterexample: on `c8_problem` — with the finite `time_max = 1000` —
the main event loop of `simulate_until` never terminates: every iteration pops
the pending `VehicleFinish`, re-offers the over-capacity request, routes the
truck to the depot it is already at (zero distance, zero service time), and
pushes an identical `VehicleFinish` at the same instant.  (The same run also
refutes the claim's set-of-events reading: only finitely many distinct events
are ever pushed.) -/
theorem c8_nontermination_ctrex :
    ¬ ∃ n, run_trace (fun q => q) (fun _ _ _ => 0) (fun _ _ _ _ => 0) c8_problem 1 1000
      n (init_state c8_problem 1) = none := by
  rintro ⟨n, hn⟩
  cases n with
  | zero => simp [run_trace] at hn
  | succ n =>
      unfold run_trace at hn
      rw [c8_first_step] at hn
      simp only [] at hn
      rw [c8_fix_forever n] at hn
      exact absurd hn (by simp)

/-! ## Routing context terminals (src/sim/ctx.rs)

`RoutingContext` in ctx.rs borrows the simulation (through which it reads the
problem, the clock and the vehicles), a vehicle index, and the request. -/

/-- `RoutingContext { sim, vehicle, request }`; the problem the borrowed
simulation references is carried explicitly. -/
structure RoutingContext where
  problem : Problem
  sim : SimState
  vehicle : ℕ
  request : Request

/-- `RoutingContext::num_terminals`. -/
def routing_num_terminals : ℕ := 13

/-- `RoutingContext::terminal` (src/sim/ctx.rs, the 13-case match; arms 5 and
7 share the `sim.time / depot.close` value; the default arm is `unreachable!`,
modelled as 0). -/
def routing_terminal (sq : ℚ → ℚ) (c : RoutingContext) (idx : ℕ) : ℚ :=
  let v := c.sim.vehicles.getD c.vehicle default
  match idx with
  | 0 => (v.queue.length : ℚ) / (c.problem.requests.length : ℚ)
  | 1 => ((v.queue.map (fun r => r.1.demand)).sum) / c.problem.total_demand
  | 2 => (v.busy_until - c.sim.time) / c.problem.depot.close
  | 3 => raw_time_cost sq c.problem v c.request / c.problem.depot.close
  | 4 => medianQ (v.queue.map (fun r => raw_time_cost sq c.problem v r.1
      / c.problem.depot.close))
  | 5 => c.sim.time / c.problem.depot.close
  | 6 => c.request.demand / c.problem.total_demand
  | 7 => c.sim.time / c.problem.depot.close
  | 8 => c.request.time / c.problem.depot.close
  | 9 => c.request.service_time / c.problem.depot.close
  | 10 => c.request.open_t / c.problem.depot.close
  | 11 => c.request.close / c.problem.depot.close
  | 12 =>
      let m := median_queue_pos v
      sq ((m.1 - c.request.x) * (m.1 - c.request.x)
          + (m.2 - c.request.y) * (m.2 - c.request.y))
        / c.problem.truck_speed / c.problem.depot.close
  | _ => 0

def c2_req : Request :=
  { idx := 1, x := 0, y := 0, demand := 1, open_t := 0, close := 1,
    service_time := 0, time := 0 }

def c2_problem : Problem :=
  { depot := { defReq with close := 1 }, requests := [c2_req], truck_speed := 1,
    truck_capacity := 10, num_trucks := 1 }

def c2_sim : SimState :=
  { time := 0, vehicles := [(VehicleState.new c2_problem).enqueue c2_req 0],
    events := [], total_distance := 0, total_failed := 0 }

def c2_ctx : RoutingContext :=
  { problem := c2_problem, sim := c2_sim, vehicle := 0, request := c2_req }

/-- C2 counterexample: the routing context exposes 13 terminals, not 5, and
terminal 1 is the summed queued demand over the total demand, NOT
`(truck capacity − summed queued demand) / total demand`: with capacity 10,
one queued request of demand 1 and total demand 1, the code yields 1 while
the claim demands `(10 − 1)/1 = 9`. -/
theorem c2_terminals_ctrex :
    routing_num_terminals ≠ 5
      ∧ routing_terminal (fun q => q) c2_ctx 1
          ≠ (c2_ctx.problem.truck_capacity
              - (((c2_ctx.sim.vehicles.getD c2_ctx.vehicle default).queue.map
                  (fun r => r.1.demand)).sum))
            / c2_ctx.problem.total_demand := by
  constructor
  · decide
  · norm_num [routing_terminal, c2_ctx, c2_sim, c2_problem, c2_req, defReq,
      VehicleState.new, VehicleState.enqueue, Problem.total_demand]

/-- C2 (amended): the `RoutingContext` exposes exactly 13 terminals, and its
terminal index 1 evaluates to the summed demand of the vehicle's queued
requests divided by the problem's total demand, for every simulation state,
vehicle and request. -/
theorem c2_terminals_amended (sq : ℚ → ℚ) (c : RoutingContext) :
    routing_num_terminals = 13
      ∧ routing_terminal sq c 1
          = (((c.sim.vehicles.getD c.vehicle default).queue.map
              (fun r => r.1.demand)).sum) / c.problem.total_demand :=
  ⟨rfl, rfl⟩

/-! ## Training-problem construction (src/sim/problem.rs `clone_training`) -/

/-- The loop body state of `clone_training`: the template cursor, the turn
counter and the accumulated requests.  The two template reads
`self.requests[current_index]` and (after the increment)
`self.requests[current_index]` are modelled with `get?`: `none` is the
out-of-bounds panic. -/
def clone_training_go (orig : List Request) (time_limit stress_factor : ℚ) :
    List Request → ℕ → ℚ → List Request → Option (List Request)
  | [], _, _, acc => some acc.reverse
  | r :: rest, current_index, turn, acc =>
      let r1 :=
        { r with
            x := r.x * stress_factor, y := r.y * stress_factor,
            service_time := r.service_time * stress_factor }
      if time_limit < r1.time then
        match orig.get? current_index, orig.get? (current_index + 1) with
        | some time_req, some next_req =>
            let r2 :=
              { r1 with
                time := time_limit * turn + (time_req.time + time_req.open_t * 1.5) / 2.5,
                open_t := time_limit * turn + time_req.open_t,
                close := time_limit * turn + time_req.close }
            if time_limit < next_req.time then
              clone_training_go orig time_limit stress_factor rest 0 (turn + 1) (r2 :: acc)
            else
              clone_training_go orig time_limit stress_factor rest (current_index + 1) turn
                (r2 :: acc)
        | _, _ => none
      else
        clone_training_go orig time_limit stress_factor rest current_index turn (r1 :: acc)

/-- `Problem::clone_training`; `none` models the out-of-bounds panic. -/
def clone_training (p : Problem) (time_limit stress_factor : ℚ) : Option Problem :=
  (clone_training_go p.requests time_limit stress_factor p.requests 0 0 []).map
    (fun requests =>
      { depot := p.depot, requests := requests, truck_speed := p.truck_speed,
        num_trucks := p.num_trucks, truck_capacity := p.truck_capacity })

def c10_req : Request :=
  { idx := 1, x := 0, y := 0, demand := 1, open_t := 0, close := 20,
    service_time := 10, time := 10 }

def c10_problem : Problem :=
  { depot := defReq, requests := [c10_req], truck_speed := 1, truck_capacity := 5,
    num_trucks := 1 }

/-- C10 counterexample: with exactly one customer request whose arrival time
(10) exceeds `time_limit` (5), `clone_training` reads
`self.requests[current_index]` at the incremented cursor 1 with
`requests.len() = 1` — an out-of-bounds panic. -/
theorem c10_clone_training_ctrex :
    clone_training c10_problem 5 1 = none := by
  norm_num [clone_training, clone_training_go, c10_problem, c10_req, defReq]

/-- Overflow test of `clone_training`: the request arrives past the limit. -/
def ovf (tl : ℚ) (r : Request) : Bool :=
  decide (tl < r.time)

/-- Number of overflow requests among the first `k`. -/
def ov_count (tl : ℚ) (orig : List Request) (k : ℕ) : ℕ :=
  ((orig.take k).filter (ovf tl)).length

theorem ov_count_le_total (tl : ℚ) (orig : List Request) (k : ℕ) :
    ov_count tl orig k ≤ (orig.filter (ovf tl)).length :=
  ((orig.take_sublist k).filter _).length_le

theorem ov_count_succ (tl : ℚ) (orig : List Request) (k : ℕ) (hk : k < orig.length) :
    ov_count tl orig (k + 1)
      = ov_count tl orig k + (if ovf tl (orig.getD k default) then 1 else 0) := by
  unfold ov_count
  rw [List.take_succ]
  rw [List.getElem?_eq_getElem hk]
  simp only [Option.toList_some, List.filter_append, List.length_append]
  rw [List.getD_eq_getElem?_getD, List.getElem?_eq_getElem hk]
  simp only [Option.getD_some]
  split
  · next h => simp [List.filter_cons, h]
  · next h => simp [List.filter_cons, h]

theorem ov_count_mono (tl : ℚ) (orig : List Request) (k : ℕ) :
    ov_count tl orig k ≤ ov_count tl orig (k + 1) := by
  by_cases hk : k < orig.length
  · rw [ov_count_succ tl orig k hk]
    omega
  · unfold ov_count
    rw [List.take_of_length_le (by omega), List.take_of_length_le (by omega)]

theorem filter_ovf_le_one (tl : ℚ) (l : List Request)
    (h : ∀ j, 1 ≤ j → j < l.length → ¬ tl < (l.getD j default).time) :
    (l.filter (ovf tl)).length ≤ 1 := by
  match l with
  | [] => simp
  | a :: t =>
      have ht : t.filter (ovf tl) = [] := by
        rw [List.filter_eq_nil_iff]
        intro x hx
        obtain ⟨j, hj, hget⟩ := List.getElem_of_mem hx
        have := h (j + 1) (by omega) (by simpa using hj)
        have hx2 : (a :: t).getD (j + 1) default = x := by
          rw [List.getD_eq_getElem?_getD]
          simp only [List.getElem?_cons_succ]
          rw [List.getElem?_eq_getElem hj]
          simp [hget]
        rw [hx2] at this
        simpa [ovf] using this
      rw [List.filter_cons]
      split
      · simp [ht]
      · simp [ht]

theorem drop_cons_facts (orig : List Request) (k : ℕ) (r : Request)
    (rest' : List Request) (h : orig.drop k = r :: rest') :
    orig.getD k default = r ∧ k < orig.length ∧ orig.drop (k + 1) = rest' := by
  have hk : k < orig.length := by
    by_contra hk
    rw [List.drop_eq_nil_of_le (by omega)] at h
    exact absurd h (by simp)
  refine ⟨?_, hk, ?_⟩
  · have := List.head?_drop orig k
    rw [h] at this
    simp only [List.head?_cons] at this
    rw [List.getD_eq_getElem?_getD, ← this]
    rfl
  · have := List.tail_drop orig k
    rw [h] at this
    simpa using this.symm

theorem clone_training_go_some (orig : List Request) (tl sf : ℚ)
    (hmain : ¬ (orig.length = 1 ∧ tl < (orig.getD 0 default).time)) :
    ∀ (rest : List Request) (k c : ℕ) (turn : ℚ) (acc : List Request),
      orig.drop k = rest →
      c ≤ ov_count tl orig k →
      (∀ j, 1 ≤ j → j ≤ c → ¬ tl < (orig.getD j default).time) →
      (c = 0 ∨ c < orig.length) →
      (clone_training_go orig tl sf rest c turn acc).isSome
  | [], k, c, turn, acc, _, _, _, _ => by simp [clone_training_go]
  | r :: rest', k, c, turn, acc, hdrop, hov, hnov, hc => by
      obtain ⟨hget, hk, hdrop'⟩ := drop_cons_facts orig k r rest' hdrop
      unfold clone_training_go
      by_cases hovr : tl < r.time
      · rw [if_pos (by simpa using hovr)]
        have hclen : c < orig.length := by
          rcases hc with rfl | h
          · omega
          · exact h
        have hc1 : c + 1 < orig.length := by
          by_contra hc1
          have hceq : c + 1 = orig.length := by omega
          rcases Nat.eq_zero_or_pos c with rfl | hcpos
          · -- length = 1; the overflow element must be orig[0], contradicting hmain
            have hlen1 : orig.length = 1 := by omega
            have hk0 : k = 0 := by omega
            subst hk0
            exact hmain ⟨hlen1, by rw [hget]; exact hovr⟩
          · -- c ≥ 1: indices 1..length-1 are all non-overflow, so at most one
            -- overflow exists, forcing c ≤ 1, length = 2, and the current
            -- overflow element to sit at index 1 — contradiction.
            have hfilter : (orig.filter (ovf tl)).length ≤ 1 :=
              filter_ovf_le_one tl orig (fun j h1 hj => hnov j h1 (by omega))
            have hcle : c ≤ 1 :=
              le_trans hov (le_trans (ov_count_le_total tl orig k) hfilter)
            have hceq1 : c = 1 := by omega
            have hk1 : 1 ≤ k := by
              by_contra hk1
              have : k = 0 := by omega
              subst this
              simp [ov_count] at hov
              omega
            have : ¬ tl < (orig.getD k default).time := by
              have hklen : k < orig.length := hk
              have hkle : k ≤ 1 := by
                by_contra hkgt
                have : orig.length = 2 := by omega
                omega
              have : k = 1 := by omega
              subst this
              exact hnov 1 (by omega) (by omega)
            rw [hget] at this
            exact this hovr
        rw [List.get?_eq_getElem?, List.getElem?_eq_getElem hclen]
        rw [List.get?_eq_getElem?, List.getElem?_eq_getElem hc1]
        simp only []
        by_cases hnext : tl < orig[c + 1].time
        · rw [if_pos hnext]
          exact clone_training_go_some orig tl sf hmain rest' (k + 1) 0 (turn + 1) _
            hdrop' (by omega) (by intro j h1 h2; omega) (Or.inl rfl)
        · rw [if_neg hnext]
          refine clone_training_go_some orig tl sf hmain rest' (k + 1) (c + 1) turn _
            hdrop' ?_ ?_ (Or.inr hc1)
          · rw [ov_count_succ tl orig k hk, hget]
            have : ovf tl r = true := by simpa [ovf] using hovr
            rw [this]
            simp only [if_pos]
            omega
          · intro j h1 h2
            rcases Nat.lt_or_ge j (c + 1) with hj | hj
            · exact hnov j h1 (by omega)
            · have : j = c + 1 := by omega
              subst this
              rw [List.getD_eq_getElem?_getD, List.getElem?_eq_getElem hc1]
              simpa using hnext
      · rw [if_neg (by simpa using hovr)]
        exact clone_training_go_some orig tl sf hmain rest' (k + 1) c turn _
          hdrop' (le_trans hov (ov_count_mono tl orig k)) hnov hc

/-- C10 (amended): `clone_training` returns normally — both template-cursor
reads stay in bounds — for every problem EXCEPT the one shape the
counterexample exhibits: exactly one customer request whose arrival time
exceeds `time_limit`. -/
theorem c10_clone_training_amended (p : Problem) (time_limit stress_factor : ℚ)
    (h : ¬ (p.requests.length = 1 ∧ time_limit < (p.requests.getD 0 default).time)) :
    (clone_training p time_limit stress_factor).isSome := by
  unfold clone_training
  have hsome := clone_training_go_some p.requests time_limit stress_factor h p.requests
    0 0 0 [] (by simp) (by simp [ov_count]) (by intro j h1 h2; omega) (Or.inl rfl)
  obtain ⟨x, hx⟩ := Option.isSome_iff_exists.mp hsome
  rw [hx]
  rfl

/-- Witness for C10's amended theorem: a two-request problem in which both
requests overflow the limit is transformed without a panic. -/
theorem c10_clone_training_amended_witness :
    (clone_training
      { depot := defReq, requests := [c10_req, c10_req], truck_speed := 1,
        truck_capacity := 5, num_trucks := 1 } 5 1).isSome :=
  c10_clone_training_amended _ 5 1 (by norm_num)

/-! ## Program representation (src/gp/program.rs)

A program is its byte vector; index `i`'s children live at `2i+1` and `2i+2`
(`MAX_PROGRAM_NODE_CHILDREN = 2`).  `byteAt` reads with the null byte 255 as
default: reads past the end only happen at positions the invariants make
null.  The node arity function `ar` abstracts `C::internal_num_children`
(always 2 for both concrete contexts, hence the `ar k ≤ 2` hypotheses). -/

/-- Decoded node (src/gp/program.rs `Node`). -/
inductive Node where
  | const : ℚ → Node
  | terminal : ℕ → Node
  | internal : ℕ → Node
  | null
deriving DecidableEq

/-- `impl From<u8> for Node`: `0..=128` constants, `129..=192` terminals,
`193..=254` internals, `255` null. -/
def Node.ofByte (b : ℕ) : Node :=
  if b ≤ 128 then .const (((b : ℚ) - 64) / 16)
  else if b ≤ 192 then .terminal (b - 129)
  else if b ≤ 254 then .internal (b - 193)
  else .null

/-- Read a byte of the program, null past the end. -/
def byteAt (p : List ℕ) (i : ℕ) : ℕ :=
  p.getD i 255

/-- Arity of the node encoded by a byte. -/
def node_arity (ar : ℕ → ℕ) (b : ℕ) : ℕ :=
  match Node.ofByte b with
  | .internal k => ar k
  | _ => 0

/-- `Program::ensure_index_exist`: resize up, padding with nulls. -/
def ensure_index_exist (p : List ℕ) (i : ℕ) : List ℕ :=
  p ++ List.replicate (i + 1 - p.length) 255

/-- The write `self.nodes[index] = value` of `Program::generate_at` (after
`ensure_index_exist`). -/
def write_at (p : List ℕ) (i : ℕ) (v : ℕ) : List ℕ :=
  (ensure_index_exist p i).set i v

theorem byteAt_oob (p : List ℕ) (i : ℕ) (h : p.length ≤ i) : byteAt p i = 255 := by
  unfold byteAt
  rw [List.getD_eq_getElem?_getD, List.getElem?_eq_none (by omega)]
  rfl

theorem ofByte_oob (p : List ℕ) (i : ℕ) (h : p.length ≤ i) :
    Node.ofByte (byteAt p i) = .null := by
  rw [byteAt_oob p i h]
  rfl

theorem internal_lt (p : List ℕ) (i k : ℕ)
    (h : Node.ofByte (byteAt p i) = .internal k) : i < p.length := by
  by_contra hc
  rw [ofByte_oob p i (by omega)] at h
  exact absurd h (by simp)

theorem arity_pos_lt (ar : ℕ → ℕ) (p : List ℕ) (i : ℕ)
    (h : 1 ≤ node_arity ar (byteAt p i)) : i < p.length := by
  unfold node_arity at h
  cases hb : Node.ofByte (byteAt p i) with
  | internal k => exact internal_lt p i k hb
  | const q => rw [hb] at h; simp at h
  | terminal t => rw [hb] at h; simp at h
  | null => rw [hb] at h; simp at h

theorem length_ensure (p : List ℕ) (i : ℕ) :
    (ensure_index_exist p i).length = max p.length (i + 1) := by
  unfold ensure_index_exist
  simp only [List.length_append, List.length_replicate]
  omega

theorem byteAt_ensure (p : List ℕ) (i j : ℕ) :
    byteAt (ensure_index_exist p i) j = byteAt p j := by
  unfold byteAt ensure_index_exist
  rw [List.getD_eq_getElem?_getD, List.getD_eq_getElem?_getD]
  by_cases hj : j < p.length
  · rw [List.getElem?_append_left hj]
  · rw [List.getElem?_append_right (by omega)]
    have hp : p[j]? = none := List.getElem?_eq_none (by omega)
    have hr : (List.replicate (i + 1 - p.length) 255)[j - p.length]?
        = if j - p.length < i + 1 - p.length then some 255 else none := by
      by_cases hrep : j - p.length < i + 1 - p.length
      · rw [if_pos hrep]
        rw [List.getElem?_eq_getElem (by simp only [List.length_replicate]; omega)]
        simp
      · rw [if_neg hrep]
        exact List.getElem?_eq_none (by simp only [List.length_replicate]; omega)
    rw [hp, hr]
    split
    · rfl
    · rfl

theorem byteAt_write_at (p : List ℕ) (i v j : ℕ) :
    byteAt (write_at p i v) j = if j = i then v else byteAt p j := by
  unfold write_at
  split
  · next hj =>
      subst hj
      unfold byteAt
      rw [List.getD_eq_getElem?_getD,
        List.getElem?_set_self (by rw [length_ensure]; omega)]
      rfl
  · next hj =>
      unfold byteAt
      rw [List.getD_eq_getElem?_getD, List.getElem?_set_ne (by omega)]
      rw [← List.getD_eq_getElem?_getD]
      exact byteAt_ensure p i j

/-- Depth to the bottom of the subtree at `i`
(`GPContext::depth_to_bottom`), fuel-driven; `p.length - i` fuel suffices. -/
def dtb_fuel (ar : ℕ → ℕ) (p : List ℕ) : ℕ → ℕ → ℕ
  | 0, _ => 0
  | fuel + 1, i =>
      match Node.ofByte (byteAt p i) with
      | .internal k =>
          max (if 1 ≤ ar k then dtb_fuel ar p fuel (2 * i + 1) + 1 else 0)
            (if 2 ≤ ar k then dtb_fuel ar p fuel (2 * i + 2) + 1 else 0)
      | _ => 0

/-- `depth_to_bottom`: 0 for a leaf (or null), `1 + max` over children of an
internal node. -/
def depth_to_bottom (ar : ℕ → ℕ) (p : List ℕ) (i : ℕ) : ℕ :=
  dtb_fuel ar p (p.length - i) i

theorem dtb_fuel_mono (ar : ℕ → ℕ) (p : List ℕ) :
    ∀ (f1 f2 i : ℕ), p.length - i ≤ f1 → p.length - i ≤ f2 →
      dtb_fuel ar p f1 i = dtb_fuel ar p f2 i
  | 0, f2, i, h1, h2 => by
      have hob : Node.ofByte (byteAt p i) = .null := ofByte_oob p i (by omega)
      cases f2 with
      | zero => rfl
      | succ g => simp [dtb_fuel, hob]
  | f1 + 1, 0, i, h1, h2 => by
      have hob : Node.ofByte (byteAt p i) = .null := ofByte_oob p i (by omega)
      simp [dtb_fuel, hob]
  | f1 + 1, f2 + 1, i, h1, h2 => by
      simp only [dtb_fuel]
      cases hb : Node.ofByte (byteAt p i) with
      | internal k =>
          have hi : i < p.length := internal_lt p i k hb
          rw [dtb_fuel_mono ar p f1 f2 (2 * i + 1) (by omega) (by omega)]
          rw [dtb_fuel_mono ar p f1 f2 (2 * i + 2) (by omega) (by omega)]
      | const q => rfl
      | terminal t => rfl
      | null => rfl

/-- The one-step unfolding of `depth_to_bottom`. -/
theorem dtb_unfold (ar : ℕ → ℕ) (p : List ℕ) (i : ℕ) :
    depth_to_bottom ar p i
      = match Node.ofByte (byteAt p i) with
        | .internal k =>
            max (if 1 ≤ ar k then depth_to_bottom ar p (2 * i + 1) + 1 else 0)
              (if 2 ≤ ar k then depth_to_bottom ar p (2 * i + 2) + 1 else 0)
        | _ => 0 := by
  unfold depth_to_bottom
  cases hf : p.length - i with
  | zero =>
      have hob : Node.ofByte (byteAt p i) = .null := ofByte_oob p i (by omega)
      simp [dtb_fuel, hob]
  | succ m =>
      simp only [dtb_fuel]
      cases hb : Node.ofByte (byteAt p i) with
      | internal k =>
          have hi : i < p.length := internal_lt p i k hb
          rw [dtb_fuel_mono ar p m (p.length - (2 * i + 1)) (2 * i + 1) (by omega)
            (le_refl _)]
          rw [dtb_fuel_mono ar p m (p.length - (2 * i + 2)) (2 * i + 2) (by omega)
            (le_refl _)]
      | const q => rfl
      | terminal t => rfl
      | null => rfl

theorem dtb_of_not_internal (ar : ℕ → ℕ) (p : List ℕ) (i : ℕ)
    (h : ∀ k, Node.ofByte (byteAt p i) ≠ .internal k) :
    depth_to_bottom ar p i = 0 := by
  rw [dtb_unfold]
  cases hb : Node.ofByte (byteAt p i) with
  | internal k => exact absurd hb (h k)
  | const q => rfl
  | terminal t => rfl
  | null => rfl

/-! ## The heap layout: descendants and layers -/

/-- `x` lies in the (reflexive) subtree cone rooted at `i` of the implicit
binary heap layout `children(i) = {2i+1, 2i+2}`. -/
inductive Desc : ℕ → ℕ → Prop where
  | refl (i : ℕ) : Desc i i
  | left {i j : ℕ} : Desc i j → Desc i (2 * j + 1)
  | right {i j : ℕ} : Desc i j → Desc i (2 * j + 2)

theorem Desc.le {i j : ℕ} (h : Desc i j) : i ≤ j := by
  induction h with
  | refl => exact le_refl _
  | left _ ih => omega
  | right _ ih => omega

theorem Desc.trans {a b c : ℕ} (h1 : Desc a b) (h2 : Desc b c) : Desc a c := by
  induction h2 with
  | refl => exact h1
  | left _ ih => exact .left ih
  | right _ ih => exact .right ih

theorem desc_zero (j : ℕ) : Desc 0 j := by
  induction j using Nat.strong_induction_on with
  | _ j ih =>
      match j with
      | 0 => exact .refl 0
      | j + 1 =>
          rcases Nat.even_or_odd j with he | ho
          · obtain ⟨m, hm⟩ := he
            have : j + 1 = 2 * m + 1 := by omega
            rw [this]
            exact .left (ih m (by omega))
          · obtain ⟨m, hm⟩ := ho
            have : j + 1 = 2 * m + 2 := by omega
            rw [this]
            exact .right (ih m (by omega))

theorem desc_child_cases {a x : ℕ} (h : Desc a x) :
    a = x ∨ ∃ m, (x = 2 * m + 1 ∨ x = 2 * m + 2) ∧ Desc a m := by
  cases h with
  | refl => exact Or.inl rfl
  | left h => exact Or.inr ⟨_, Or.inl rfl, h⟩
  | right h => exact Or.inr ⟨_, Or.inr rfl, h⟩

theorem desc_comparable :
    ∀ x a b, Desc a x → Desc b x → Desc a b ∨ Desc b a := by
  intro x
  induction x using Nat.strong_induction_on with
  | _ x ih =>
      intro a b ha hb
      rcases desc_child_cases ha with rfl | ⟨m, hm, ham⟩
      · exact Or.inr hb
      rcases desc_child_cases hb with rfl | ⟨m', hm', hbm⟩
      · exact Or.inl ha
      rcases hm with hx | hx
      · rcases hm' with h' | h'
        · have hmm : m' = m := by omega
          subst hmm
          exact ih m' (by omega) a b ham hbm
        · omega
      · rcases hm' with h' | h'
        · omega
        · have hmm : m' = m := by omega
          subst hmm
          exact ih m' (by omega) a b ham hbm

theorem desc_antisymm {a b : ℕ} (h1 : Desc a b) (h2 : Desc b a) : a = b :=
  le_antisymm h1.le h2.le

theorem desc_odd {a m : ℕ} (h : Desc a (2 * m + 1)) : a = 2 * m + 1 ∨ Desc a m := by
  rcases desc_child_cases h with heq | ⟨m', hm', h'⟩
  · exact Or.inl heq
  · rcases hm' with hp | hp
    · have : m' = m := by omega
      subst this
      exact Or.inr h'
    · omega

theorem desc_even {a m : ℕ} (h : Desc a (2 * m + 2)) : a = 2 * m + 2 ∨ Desc a m := by
  rcases desc_child_cases h with heq | ⟨m', hm', h'⟩
  · exact Or.inl heq
  · rcases hm' with hp | hp
    · omega
    · have : m' = m := by omega
      subst this
      exact Or.inr h'

theorem siblings_not_both (i x : ℕ) : ¬(Desc (2 * i + 1) x ∧ Desc (2 * i + 2) x) := by
  rintro ⟨h1, h2⟩
  rcases desc_comparable x _ _ h1 h2 with h | h
  · rcases desc_even h with heq | hd
    · omega
    · have := hd.le
      omega
  · rcases desc_odd h with heq | hd
    · omega
    · have := hd.le
      omega

/-- `GPContext::depth_from_top`: `(index + 1).ilog2()`. -/
def depth_from_top (i : ℕ) : ℕ :=
  Nat.log2 (i + 1)

theorem ft_eq_log (i : ℕ) : depth_from_top i = Nat.log 2 (i + 1) := by
  unfold depth_from_top
  exact Nat.log2_eq_log_two

theorem ft_zero : depth_from_top 0 = 0 := by
  rw [ft_eq_log]
  exact Nat.log_one_right 2

theorem ft_child {j c : ℕ} (hc : c = 2 * j + 1 ∨ c = 2 * j + 2) :
    depth_from_top c = depth_from_top j + 1 := by
  rw [ft_eq_log, ft_eq_log]
  have h1 : 2 ^ Nat.log 2 (j + 1) ≤ j + 1 := Nat.pow_log_le_self 2 (by omega)
  have h2 : j + 1 < 2 ^ (Nat.log 2 (j + 1) + 1) :=
    Nat.lt_pow_succ_log_self (by norm_num) (j + 1)
  have e1 : 2 ^ (Nat.log 2 (j + 1) + 1) = 2 * 2 ^ Nat.log 2 (j + 1) := by ring
  have e2 : 2 ^ (Nat.log 2 (j + 1) + 1 + 1) = 2 * 2 ^ (Nat.log 2 (j + 1) + 1) := by
    ring
  exact Nat.log_eq_of_pow_le_of_lt_pow (by omega) (by omega)

theorem ft_le_of_desc {j s : ℕ} (h : Desc j s) : depth_from_top j ≤ depth_from_top s := by
  induction h with
  | refl => exact le_refl _
  | left _ ih => rw [ft_child (Or.inl rfl)]; omega
  | right _ ih => rw [ft_child (Or.inr rfl)]; omega

theorem ft_lt_of_desc {j s : ℕ} (h : Desc j s) (hne : j ≠ s) :
    depth_from_top j < depth_from_top s := by
  rcases desc_child_cases h with heq | ⟨m, hm, hjm⟩
  · exact absurd heq hne
  · have h1 := ft_le_of_desc hjm
    rw [ft_child hm]
    omega

/-- Membership in `GPContext::all_index_of_layer(layer)`, the range
`(1 << layer) - 1 .. (1 << (layer + 1)) - 1`. -/
def in_layer (s layer : ℕ) : Prop :=
  2 ^ layer - 1 ≤ s ∧ s < 2 ^ (layer + 1) - 1

theorem ft_of_in_layer {s layer : ℕ} (h : in_layer s layer) :
    depth_from_top s = layer := by
  obtain ⟨h1, h2⟩ := h
  rw [ft_eq_log]
  have hp : 1 ≤ 2 ^ layer := Nat.one_le_two_pow
  have e2 : 2 ^ (layer + 1) = 2 * 2 ^ layer := by ring
  exact Nat.log_eq_of_pow_le_of_lt_pow (by omega) (by omega)

/-! ## Active indices and subtree clearing (src/gp/program.rs) -/

/-- Fueled `Program::collect_all_active_indices`: push the index, then
recurse into the children of an internal node (heap layout, two child
slots as `MAX_PROGRAM_NODE_CHILDREN = 2`). -/
def collect_fuel (ar : ℕ → ℕ) (p : List ℕ) : ℕ → ℕ → List ℕ
  | 0, i => [i]
  | fuel + 1, i =>
      i :: (match Node.ofByte (byteAt p i) with
        | .internal k =>
            (if 1 ≤ ar k then collect_fuel ar p fuel (2 * i + 1) else [])
              ++ (if 2 ≤ ar k then collect_fuel ar p fuel (2 * i + 2) else [])
        | _ => [])

def collect_all_active_indices (ar : ℕ → ℕ) (p : List ℕ) (i : ℕ) : List ℕ :=
  collect_fuel ar p (p.length - i) i

/-- `Program::all_active_indices`. -/
def all_active_indices (ar : ℕ → ℕ) (p : List ℕ) : List ℕ :=
  collect_all_active_indices ar p 0

theorem collect_fuel_mono (ar : ℕ → ℕ) (p : List ℕ) :
    ∀ (f1 f2 i : ℕ), p.length - i ≤ f1 → p.length - i ≤ f2 →
      collect_fuel ar p f1 i = collect_fuel ar p f2 i
  | 0, f2, i, h1, h2 => by
      have hob : Node.ofByte (byteAt p i) = .null := ofByte_oob p i (by omega)
      cases f2 with
      | zero => rfl
      | succ g => simp [collect_fuel, hob]
  | f1 + 1, 0, i, h1, h2 => by
      have hob : Node.ofByte (byteAt p i) = .null := ofByte_oob p i (by omega)
      simp [collect_fuel, hob]
  | f1 + 1, f2 + 1, i, h1, h2 => by
      simp only [collect_fuel]
      cases hb : Node.ofByte (byteAt p i) with
      | internal k =>
          have hi : i < p.length := internal_lt p i k hb
          rw [collect_fuel_mono ar p f1 f2 (2 * i + 1) (by omega) (by omega)]
          rw [collect_fuel_mono ar p f1 f2 (2 * i + 2) (by omega) (by omega)]
      | const q => rfl
      | terminal t => rfl
      | null => rfl

theorem collect_unfold (ar : ℕ → ℕ) (p : List ℕ) (i : ℕ) :
    collect_all_active_indices ar p i
      = i :: (match Node.ofByte (byteAt p i) with
        | .internal k =>
            (if 1 ≤ ar k then collect_all_active_indices ar p (2 * i + 1) else [])
              ++ (if 2 ≤ ar k then collect_all_active_indices ar p (2 * i + 2) else [])
        | _ => []) := by
  unfold collect_all_active_indices
  cases hf : p.length - i with
  | zero =>
      have hob : Node.ofByte (byteAt p i) = .null := ofByte_oob p i (by omega)
      simp [collect_fuel, hob]
  | succ m =>
      simp only [collect_fuel]
      cases hb : Node.ofByte (byteAt p i) with
      | internal k =>
          have hi : i < p.length := internal_lt p i k hb
          rw [collect_fuel_mono ar p m (p.length - (2 * i + 1)) (2 * i + 1) (by omega)
            (le_refl _)]
          rw [collect_fuel_mono ar p m (p.length - (2 * i + 2)) (2 * i + 2) (by omega)
            (le_refl _)]
      | const q => rfl
      | terminal t => rfl
      | null => rfl

theorem mem_collect_fuel_desc (ar : ℕ → ℕ) (p : List ℕ) :
    ∀ (fuel i x : ℕ), x ∈ collect_fuel ar p fuel i → Desc i x := by
  intro fuel
  induction fuel with
  | zero =>
      intro i x hx
      simp only [collect_fuel, List.mem_singleton] at hx
      subst hx
      exact .refl _
  | succ f ih =>
      intro i x hx
      simp only [collect_fuel, List.mem_cons] at hx
      rcases hx with rfl | hx
      · exact .refl x
      cases hb : Node.ofByte (byteAt p i) with
      | internal k =>
          rw [hb] at hx
          simp only [List.mem_append] at hx
          rcases hx with hx | hx
          · rcases Decidable.em (1 ≤ ar k) with h1 | h1
            · rw [if_pos h1] at hx
              exact Desc.trans (.left (.refl i)) (ih (2 * i + 1) x hx)
            · rw [if_neg h1] at hx
              exact absurd hx (List.not_mem_nil x)
          · rcases Decidable.em (2 ≤ ar k) with h1 | h1
            · rw [if_pos h1] at hx
              exact Desc.trans (.right (.refl i)) (ih (2 * i + 2) x hx)
            · rw [if_neg h1] at hx
              exact absurd hx (List.not_mem_nil x)
      | const q => rw [hb] at hx; exact absurd hx (List.not_mem_nil x)
      | terminal t => rw [hb] at hx; exact absurd hx (List.not_mem_nil x)
      | null => rw [hb] at hx; exact absurd hx (List.not_mem_nil x)

theorem mem_collect_desc (ar : ℕ → ℕ) (p : List ℕ) (i x : ℕ)
    (hx : x ∈ collect_all_active_indices ar p i) : Desc i x :=
  mem_collect_fuel_desc ar p _ i x hx

theorem mem_collect_self (ar : ℕ → ℕ) (p : List ℕ) (i : ℕ) :
    i ∈ collect_all_active_indices ar p i := by
  rw [collect_unfold]
  exact List.mem_cons_self i _

theorem collect_fuel_bound (ar : ℕ → ℕ) (p : List ℕ) :
    ∀ (fuel i x : ℕ), p.length - i ≤ fuel → x ∈ collect_fuel ar p fuel i →
      depth_to_bottom ar p x + depth_from_top x
        ≤ depth_to_bottom ar p i + depth_from_top i := by
  intro fuel
  induction fuel with
  | zero =>
      intro i x hf hx
      simp only [collect_fuel, List.mem_singleton] at hx
      subst hx
      exact le_refl _
  | succ f ih =>
      intro i x hf hx
      simp only [collect_fuel, List.mem_cons] at hx
      rcases hx with rfl | hx
      · exact le_refl _
      cases hb : Node.ofByte (byteAt p i) with
      | internal k =>
          rw [hb] at hx
          have hi : i < p.length := internal_lt p i k hb
          have hdtb : depth_to_bottom ar p i
              = max (if 1 ≤ ar k then depth_to_bottom ar p (2 * i + 1) + 1 else 0)
                (if 2 ≤ ar k then depth_to_bottom ar p (2 * i + 2) + 1 else 0) := by
            rw [dtb_unfold, hb]
          simp only [List.mem_append] at hx
          rcases hx with hx | hx
          · rcases Decidable.em (1 ≤ ar k) with h1 | h1
            · rw [if_pos h1] at hx
              have hrec := ih (2 * i + 1) x (by omega) hx
              rw [if_pos h1] at hdtb
              have hmax : depth_to_bottom ar p (2 * i + 1) + 1
                  ≤ depth_to_bottom ar p i := by
                rw [hdtb]; exact le_max_left _ _
              have hft : depth_from_top (2 * i + 1) = depth_from_top i + 1 :=
                ft_child (Or.inl rfl)
              omega
            · rw [if_neg h1] at hx
              exact absurd hx (List.not_mem_nil x)
          · rcases Decidable.em (2 ≤ ar k) with h1 | h1
            · rw [if_pos h1] at hx
              have hrec := ih (2 * i + 2) x (by omega) hx
              rw [if_pos h1] at hdtb
              have hmax : depth_to_bottom ar p (2 * i + 2) + 1
                  ≤ depth_to_bottom ar p i := by
                rw [hdtb]; exact le_max_right _ _
              have hft : depth_from_top (2 * i + 2) = depth_from_top i + 1 :=
                ft_child (Or.inr rfl)
              omega
            · rw [if_neg h1] at hx
              exact absurd hx (List.not_mem_nil x)
      | const q => rw [hb] at hx; exact absurd hx (List.not_mem_nil x)
      | terminal t => rw [hb] at hx; exact absurd hx (List.not_mem_nil x)
      | null => rw [hb] at hx; exact absurd hx (List.not_mem_nil x)

theorem collect_bound (ar : ℕ → ℕ) (p : List ℕ) (i x : ℕ)
    (hx : x ∈ collect_all_active_indices ar p i) :
    depth_to_bottom ar p x + depth_from_top x
      ≤ depth_to_bottom ar p i + depth_from_top i :=
  collect_fuel_bound ar p _ i x (le_refl _) hx

/-- `Program::clear_subtree`: null out every active index of the subtree. -/
def clear_nodes (l : List ℕ) (p : List ℕ) : List ℕ :=
  l.foldl (fun q x => q.set x 255) p

def clear_subtree (ar : ℕ → ℕ) (p : List ℕ) (i : ℕ) : List ℕ :=
  clear_nodes (collect_all_active_indices ar p i) p

theorem byteAt_set_255 (p : List ℕ) (i x : ℕ) :
    byteAt (p.set i 255) x = if x = i then 255 else byteAt p x := by
  split
  · next hx =>
      subst hx
      by_cases hi : x < p.length
      · unfold byteAt
        rw [List.getD_eq_getElem?_getD, List.getElem?_set_self hi]
        rfl
      · rw [byteAt_oob _ x (by simp only [List.length_set]; omega)]
  · next hx =>
      unfold byteAt
      rw [List.getD_eq_getElem?_getD, List.getElem?_set_ne (by omega),
        ← List.getD_eq_getElem?_getD]

theorem byteAt_clear_nodes :
    ∀ (l : List ℕ) (p : List ℕ) (x : ℕ),
      byteAt (clear_nodes l p) x = if x ∈ l then 255 else byteAt p x := by
  intro l
  induction l with
  | nil => intro p x; simp [clear_nodes]
  | cons a l ih =>
      intro p x
      simp only [clear_nodes, List.foldl_cons] at *
      rw [ih (p.set a 255) x, byteAt_set_255]
      by_cases hl : x ∈ l
      · rw [if_pos hl, if_pos (List.mem_cons_of_mem a hl)]
      · rw [if_neg hl]
        by_cases ha : x = a
        · rw [if_pos ha, if_pos (by rw [ha]; exact List.mem_cons_self a l)]
        · rw [if_neg ha, if_neg (by simp only [List.mem_cons]; push_neg; exact ⟨ha, hl⟩)]

theorem byteAt_clear_subtree (ar : ℕ → ℕ) (p : List ℕ) (i x : ℕ) :
    byteAt (clear_subtree ar p i) x
      = if x ∈ collect_all_active_indices ar p i then 255 else byteAt p x :=
  byteAt_clear_nodes _ p x

theorem clear_outside (ar : ℕ → ℕ) (p : List ℕ) (i x : ℕ) (hx : ¬ Desc i x) :
    byteAt (clear_subtree ar p i) x = byteAt p x := by
  rw [byteAt_clear_subtree]
  rw [if_neg (fun hm => hx (mem_collect_desc ar p i x hm))]

/-! ## Depth congruence: the depth of a subtree only depends on the bytes
in its cone. -/

theorem dtb_congr_n (ar : ℕ → ℕ) (p p' : List ℕ) :
    ∀ (n i : ℕ), p'.length - i ≤ n →
      (∀ x, Desc i x → byteAt p' x = byteAt p x) →
      depth_to_bottom ar p' i = depth_to_bottom ar p i := by
  intro n
  induction n with
  | zero =>
      intro i hn h
      have h255 : byteAt p i = 255 := by
        rw [← h i (.refl i)]
        exact byteAt_oob p' i (by omega)
      rw [dtb_of_not_internal ar p' i
        (by rw [h i (.refl i), h255]; intro k hk; exact absurd hk (by simp [Node.ofByte]))]
      rw [dtb_of_not_internal ar p i
        (by rw [h255]; intro k hk; exact absurd hk (by simp [Node.ofByte]))]
  | succ n ih =>
      intro i hn h
      rw [dtb_unfold ar p' i, dtb_unfold ar p i, h i (.refl i)]
      cases hb : Node.ofByte (byteAt p i) with
      | internal k =>
          have hi : i < p'.length :=
            internal_lt p' i k (by rw [h i (.refl i)]; exact hb)
          rw [ih (2 * i + 1) (by omega)
            (fun x hx => h x (Desc.trans (.left (.refl i)) hx))]
          rw [ih (2 * i + 2) (by omega)
            (fun x hx => h x (Desc.trans (.right (.refl i)) hx))]
      | const q => rfl
      | terminal t => rfl
      | null => rfl

theorem dtb_congr (ar : ℕ → ℕ) (p p' : List ℕ) (i : ℕ)
    (h : ∀ x, Desc i x → byteAt p' x = byteAt p x) :
    depth_to_bottom ar p' i = depth_to_bottom ar p i :=
  dtb_congr_n ar p p' (p'.length - i) i (le_refl _) h

theorem node_arity_pos {ar : ℕ → ℕ} {b a : ℕ} (h : node_arity ar b = a)
    (ha : 1 ≤ a) : ∃ k, Node.ofByte b = .internal k ∧ ar k = a := by
  cases hb : Node.ofByte b with
  | internal k => simp only [node_arity, hb] at h; exact ⟨k, rfl, h⟩
  | const q => simp only [node_arity, hb] at h; omega
  | terminal t => simp only [node_arity, hb] at h; omega
  | null => simp only [node_arity, hb] at h; omega

theorem dtb_internal (ar : ℕ → ℕ) (p : List ℕ) (i k : ℕ)
    (hb : Node.ofByte (byteAt p i) = .internal k) :
    depth_to_bottom ar p i
      = max (if 1 ≤ ar k then depth_to_bottom ar p (2 * i + 1) + 1 else 0)
        (if 2 ≤ ar k then depth_to_bottom ar p (2 * i + 2) + 1 else 0) := by
  rw [dtb_unfold]
  simp only [hb]

theorem dtb_of_arity_zero (ar : ℕ → ℕ) (p : List ℕ) (i : ℕ)
    (h : node_arity ar (byteAt p i) = 0) : depth_to_bottom ar p i = 0 := by
  cases hb : Node.ofByte (byteAt p i) with
  | internal k =>
      have hk : ar k = 0 := by simp only [node_arity, hb] at h; exact h
      rw [dtb_internal ar p i k hb]
      simp [hk]
  | const q => exact dtb_of_not_internal ar p i (fun j hj => by rw [hb] at hj; simp at hj)
  | terminal t => exact dtb_of_not_internal ar p i (fun j hj => by rw [hb] at hj; simp at hj)
  | null => exact dtb_of_not_internal ar p i (fun j hj => by rw [hb] at hj; simp at hj)

/-! ## Copying subtrees (`GPContext::copy_subtree`) -/

/-- Fueled `GPContext::copy_subtree`: write the source byte at the
destination index, then copy the children (0, 1 or 2 of them, the heap
layout's `MAX_PROGRAM_NODE_CHILDREN = 2` slots). -/
def copy_fuel (ar : ℕ → ℕ) (src : List ℕ) : ℕ → List ℕ → ℕ → ℕ → List ℕ
  | 0, dest, dIdx, sIdx => write_at dest dIdx (byteAt src sIdx)
  | fuel + 1, dest, dIdx, sIdx =>
      if 2 ≤ node_arity ar (byteAt src sIdx) then
        copy_fuel ar src fuel
          (copy_fuel ar src fuel (write_at dest dIdx (byteAt src sIdx))
            (2 * dIdx + 1) (2 * sIdx + 1))
          (2 * dIdx + 2) (2 * sIdx + 2)
      else if 1 ≤ node_arity ar (byteAt src sIdx) then
        copy_fuel ar src fuel (write_at dest dIdx (byteAt src sIdx))
          (2 * dIdx + 1) (2 * sIdx + 1)
      else
        write_at dest dIdx (byteAt src sIdx)

def copy_subtree (ar : ℕ → ℕ) (src dest : List ℕ) (dIdx sIdx : ℕ) : List ℕ :=
  copy_fuel ar src (src.length - sIdx) dest dIdx sIdx

theorem copy_fuel_outside (ar : ℕ → ℕ) (src : List ℕ) :
    ∀ (fuel : ℕ) (dest : List ℕ) (dIdx sIdx x : ℕ), ¬ Desc dIdx x →
      byteAt (copy_fuel ar src fuel dest dIdx sIdx) x = byteAt dest x := by
  intro fuel
  induction fuel with
  | zero =>
      intro dest dIdx sIdx x hx
      simp only [copy_fuel]
      rw [byteAt_write_at, if_neg (fun he => hx (by rw [he]; exact Desc.refl dIdx))]
  | succ f ih =>
      intro dest dIdx sIdx x hx
      have hx1 : ¬ Desc (2 * dIdx + 1) x :=
        fun hd => hx (Desc.trans (.left (.refl dIdx)) hd)
      have hx2 : ¬ Desc (2 * dIdx + 2) x :=
        fun hd => hx (Desc.trans (.right (.refl dIdx)) hd)
      have hw : byteAt (write_at dest dIdx (byteAt src sIdx)) x = byteAt dest x := by
        rw [byteAt_write_at, if_neg (fun he => hx (by rw [he]; exact Desc.refl dIdx))]
      simp only [copy_fuel]
      by_cases h2 : 2 ≤ node_arity ar (byteAt src sIdx)
      · rw [if_pos h2, ih _ _ _ x hx2, ih _ _ _ x hx1, hw]
      · rw [if_neg h2]
        by_cases h1 : 1 ≤ node_arity ar (byteAt src sIdx)
        · rw [if_pos h1, ih _ _ _ x hx1, hw]
        · rw [if_neg h1, hw]

theorem copy_subtree_outside (ar : ℕ → ℕ) (src dest : List ℕ) (dIdx sIdx x : ℕ)
    (hx : ¬ Desc dIdx x) :
    byteAt (copy_subtree ar src dest dIdx sIdx) x = byteAt dest x :=
  copy_fuel_outside ar src _ dest dIdx sIdx x hx

theorem copy_fuel_dtb (ar : ℕ → ℕ) (src : List ℕ) :
    ∀ (fuel : ℕ) (dest : List ℕ) (dIdx sIdx : ℕ), src.length - sIdx ≤ fuel →
      depth_to_bottom ar (copy_fuel ar src fuel dest dIdx sIdx) dIdx
        ≤ depth_to_bottom ar src sIdx := by
  intro fuel
  induction fuel with
  | zero =>
      intro dest dIdx sIdx hf
      simp only [copy_fuel]
      have h255 : byteAt src sIdx = 255 := byteAt_oob src sIdx (by omega)
      rw [dtb_of_not_internal]
      · omega
      · intro k hk
        rw [byteAt_write_at, if_pos rfl, h255] at hk
        exact absurd hk (by simp [Node.ofByte])
  | succ f ih =>
      intro dest dIdx sIdx hf
      simp only [copy_fuel]
      by_cases h2 : 2 ≤ node_arity ar (byteAt src sIdx)
      · obtain ⟨k, hk, hak⟩ := node_arity_pos
          (rfl : node_arity ar (byteAt src sIdx) = node_arity ar (byteAt src sIdx))
          (by omega)
        have hs : sIdx < src.length := internal_lt src sIdx k hk
        have hb1 : byteAt
            (copy_fuel ar src f
              (copy_fuel ar src f (write_at dest dIdx (byteAt src sIdx))
                (2 * dIdx + 1) (2 * sIdx + 1))
              (2 * dIdx + 2) (2 * sIdx + 2)) dIdx = byteAt src sIdx := by
          rw [copy_fuel_outside ar src f _ _ _ dIdx
              (fun hd => by have := hd.le; omega),
            copy_fuel_outside ar src f _ _ _ dIdx
              (fun hd => by have := hd.le; omega),
            byteAt_write_at, if_pos rfl]
        rw [if_pos h2]
        rw [dtb_internal ar _ dIdx k (by rw [hb1]; exact hk)]
        rw [dtb_internal ar src sIdx k hk]
        rw [if_pos (by omega : 1 ≤ ar k), if_pos (by omega : 1 ≤ ar k),
          if_pos (by omega : 2 ≤ ar k), if_pos (by omega : 2 ≤ ar k)]
        have hrec2 : depth_to_bottom ar
            (copy_fuel ar src f
              (copy_fuel ar src f (write_at dest dIdx (byteAt src sIdx))
                (2 * dIdx + 1) (2 * sIdx + 1))
              (2 * dIdx + 2) (2 * sIdx + 2)) (2 * dIdx + 2)
            ≤ depth_to_bottom ar src (2 * sIdx + 2) :=
          ih _ (2 * dIdx + 2) (2 * sIdx + 2) (by omega)
        have hcongr : depth_to_bottom ar
            (copy_fuel ar src f
              (copy_fuel ar src f (write_at dest dIdx (byteAt src sIdx))
                (2 * dIdx + 1) (2 * sIdx + 1))
              (2 * dIdx + 2) (2 * sIdx + 2)) (2 * dIdx + 1)
            = depth_to_bottom ar
              (copy_fuel ar src f (write_at dest dIdx (byteAt src sIdx))
                (2 * dIdx + 1) (2 * sIdx + 1)) (2 * dIdx + 1) := by
          apply dtb_congr
          intro x hdx
          exact copy_fuel_outside ar src f _ _ _ x
            (fun hd => siblings_not_both dIdx x ⟨hdx, hd⟩)
        have hrec1 : depth_to_bottom ar
            (copy_fuel ar src f (write_at dest dIdx (byteAt src sIdx))
              (2 * dIdx + 1) (2 * sIdx + 1)) (2 * dIdx + 1)
            ≤ depth_to_bottom ar src (2 * sIdx + 1) :=
          ih _ (2 * dIdx + 1) (2 * sIdx + 1) (by omega)
        rw [hcongr]
        exact max_le_max (by omega) (by omega)
      · rw [if_neg h2]
        by_cases h1 : 1 ≤ node_arity ar (byteAt src sIdx)
        · obtain ⟨k, hk, hak⟩ := node_arity_pos rfl h1
          have hs : sIdx < src.length := internal_lt src sIdx k hk
          have hb1 : byteAt
              (copy_fuel ar src f (write_at dest dIdx (byteAt src sIdx))
                (2 * dIdx + 1) (2 * sIdx + 1)) dIdx = byteAt src sIdx := by
            rw [copy_fuel_outside ar src f _ _ _ dIdx
                (fun hd => by have := hd.le; omega),
              byteAt_write_at, if_pos rfl]
          rw [if_pos h1]
          rw [dtb_internal ar _ dIdx k (by rw [hb1]; exact hk)]
          rw [dtb_internal ar src sIdx k hk]
          rw [if_pos (by omega : 1 ≤ ar k), if_pos (by omega : 1 ≤ ar k),
            if_neg (by omega : ¬ 2 ≤ ar k), if_neg (by omega : ¬ 2 ≤ ar k)]
          have hrec1 := ih (write_at dest dIdx (byteAt src sIdx))
            (2 * dIdx + 1) (2 * sIdx + 1) (by omega)
          exact max_le_max (by omega) (le_refl 0)
        · rw [if_neg h1]
          have hz : depth_to_bottom ar (write_at dest dIdx (byteAt src sIdx)) dIdx
              = 0 :=
            dtb_of_arity_zero ar _ dIdx (by rw [byteAt_write_at, if_pos rfl]; omega)
          omega

theorem copy_subtree_dtb (ar : ℕ → ℕ) (src dest : List ℕ) (dIdx sIdx : ℕ) :
    depth_to_bottom ar (copy_subtree ar src dest dIdx sIdx) dIdx
      ≤ depth_to_bottom ar src sIdx :=
  copy_fuel_dtb ar src _ dest dIdx sIdx (le_refl _)

/-! ## Tree generation (src/gp/mod.rs)

The random draws (`gen_bool`, `gen_range`, `choose`) are modelled
relationally: a generation relation holds between the program before and
after the call whenever some admissible sequence of draws produces it. -/

/-- `Program::child_indices(index, num_children)`:
`(0..num_children).map(|i| index * MAX_PROGRAM_NODE_CHILDREN + i + 1)`. -/
def child_indices (i a : ℕ) : List ℕ :=
  (List.range a).map (fun j => i * 2 + j + 1)

theorem mem_child_indices {c i a : ℕ} (hc : c ∈ child_indices i a) (ha : a ≤ 2) :
    c = 2 * i + 1 ∨ c = 2 * i + 2 := by
  unfold child_indices at hc
  simp only [List.mem_map, List.mem_range] at hc
  obtain ⟨j, hj, rfl⟩ := hc
  omega

theorem child_indices_zero (i : ℕ) : child_indices i 0 = [] := rfl

theorem child_indices_one (i : ℕ) : child_indices i 1 = [2 * i + 1] := by
  simp only [child_indices, show List.range 1 = [0] from rfl, List.map_cons, List.map_nil,
    List.cons.injEq, and_true]
  omega

theorem child_indices_two (i : ℕ) : child_indices i 2 = [2 * i + 1, 2 * i + 2] := by
  simp only [child_indices, show List.range 2 = [0, 1] from rfl, List.map_cons,
    List.map_nil, List.cons.injEq, and_true]
  exact ⟨by omega, by omega⟩

/-- Sequential child generation: one `R`-step per child index, threading the
program through (the `gen_child_fn` loop of `Program::generate_at`). -/
inductive Chain (R : ℕ → List ℕ → List ℕ → Prop) : List ℕ → List ℕ → List ℕ → Prop where
  | nil (p : List ℕ) : Chain R [] p p
  | cons {i : ℕ} {is : List ℕ} {p q r : List ℕ} :
      R i p q → Chain R is q r → Chain R (i :: is) p r

theorem chain_nil_inv {R : ℕ → List ℕ → List ℕ → Prop} {p q : List ℕ}
    (h : Chain R [] p q) : q = p := by
  cases h
  rfl

theorem chain_cons_inv {R : ℕ → List ℕ → List ℕ → Prop} {i : ℕ} {is : List ℕ}
    {p r : List ℕ} (h : Chain R (i :: is) p r) :
    ∃ q, R i p q ∧ Chain R is q r := by
  cases h with
  | cons h1 h2 => exact ⟨_, h1, h2⟩

theorem chain_outside {R : ℕ → List ℕ → List ℕ → Prop}
    (hR : ∀ c p q, R c p q → ∀ x, ¬ Desc c x → byteAt q x = byteAt p x) :
    ∀ {is : List ℕ} {p q : List ℕ}, Chain R is p q →
      ∀ x, (∀ c ∈ is, ¬ Desc c x) → byteAt q x = byteAt p x := by
  intro is p q h
  induction h with
  | nil => intro x hx; rfl
  | cons h1 _ ih =>
      intro x hx
      rw [ih x (fun c hc => hx c (List.mem_cons_of_mem _ hc)),
        hR _ _ _ h1 x (hx _ (List.mem_cons_self _ _))]

/-- `GPContext::gen_terminal_at`: write a terminal byte `129 + t`
(`t < num_terminals`) or a constant byte `k * 16` (`k ≤ 8`) at the index. -/
def GenTerm (nT : ℕ) (i : ℕ) (p p' : List ℕ) : Prop :=
  (∃ t, t < nT ∧ p' = write_at p i (129 + t))
  ∨ (∃ k, k ≤ 8 ∧ p' = write_at p i (k * 16))

/-- `GPContext::gen_full_at`: a terminal at depth 0, otherwise an internal
byte `193 + k` (`k < num_internals`) whose children are all generated at
depth one less. -/
def GenFull (ar : ℕ → ℕ) (nT nI : ℕ) : ℕ → ℕ → List ℕ → List ℕ → Prop
  | 0, i, p, p' => GenTerm nT i p p'
  | d + 1, i, p, p' =>
      ∃ k, k < nI ∧
        Chain (GenFull ar nT nI d) (child_indices i (ar k))
          (write_at p i (193 + k)) p'

/-- `GPContext::gen_grow_at`: a terminal at depth 0, otherwise
`gen_generic_at` picks either a terminal (stopping early) or an internal
node whose children grow at depth one less. -/
def GenGrow (ar : ℕ → ℕ) (nT nI : ℕ) : ℕ → ℕ → List ℕ → List ℕ → Prop
  | 0, i, p, p' => GenTerm nT i p p'
  | d + 1, i, p, p' =>
      (∃ t, t < nT ∧ p' = write_at p i (129 + t))
      ∨ (∃ k, k < nI ∧
          Chain (GenGrow ar nT nI d) (child_indices i (ar k))
            (write_at p i (193 + k)) p')

theorem genTerm_outside {nT i : ℕ} {p p' : List ℕ} (h : GenTerm nT i p p')
    (x : ℕ) (hx : ¬ Desc i x) : byteAt p' x = byteAt p x := by
  rcases h with ⟨t, _, rfl⟩ | ⟨k, _, rfl⟩ <;>
    rw [byteAt_write_at, if_neg (fun he => hx (by rw [he]; exact .refl i))]

theorem genFull_outside {ar : ℕ → ℕ} {nT nI : ℕ} (har : ∀ k, ar k ≤ 2) :
    ∀ (d i : ℕ) (p p' : List ℕ), GenFull ar nT nI d i p p' →
      ∀ x, ¬ Desc i x → byteAt p' x = byteAt p x := by
  intro d
  induction d with
  | zero => intro i p p' h x hx; exact genTerm_outside h x hx
  | succ d ih =>
      intro i p p' h x hx
      obtain ⟨k, hkn, hch⟩ := h
      have hall : ∀ c ∈ child_indices i (ar k), ¬ Desc c x := by
        intro c hc hdc
        rcases mem_child_indices hc (har k) with rfl | rfl
        · exact hx (Desc.trans (.left (.refl i)) hdc)
        · exact hx (Desc.trans (.right (.refl i)) hdc)
      rw [chain_outside (fun c p q h => ih c p q h) hch x hall]
      rw [byteAt_write_at, if_neg (fun he => hx (by rw [he]; exact .refl i))]

theorem genGrow_outside {ar : ℕ → ℕ} {nT nI : ℕ} (har : ∀ k, ar k ≤ 2) :
    ∀ (d i : ℕ) (p p' : List ℕ), GenGrow ar nT nI d i p p' →
      ∀ x, ¬ Desc i x → byteAt p' x = byteAt p x := by
  intro d
  induction d with
  | zero => intro i p p' h x hx; exact genTerm_outside h x hx
  | succ d ih =>
      intro i p p' h x hx
      rcases h with ⟨t, _, rfl⟩ | ⟨k, hkn, hch⟩
      · rw [byteAt_write_at, if_neg (fun he => hx (by rw [he]; exact .refl i))]
      · have hall : ∀ c ∈ child_indices i (ar k), ¬ Desc c x := by
          intro c hc hdc
          rcases mem_child_indices hc (har k) with rfl | rfl
          · exact hx (Desc.trans (.left (.refl i)) hdc)
          · exact hx (Desc.trans (.right (.refl i)) hdc)
        rw [chain_outside (fun c p q h => ih c p q h) hch x hall]
        rw [byteAt_write_at, if_neg (fun he => hx (by rw [he]; exact .refl i))]

theorem genTerm_not_internal {nT i : ℕ} {p p' : List ℕ} (hnT : nT ≤ 64)
    (h : GenTerm nT i p p') : ∀ k, Node.ofByte (byteAt p' i) ≠ .internal k := by
  intro k hk
  rcases h with ⟨t, ht, rfl⟩ | ⟨c, hc, rfl⟩
  · rw [byteAt_write_at, if_pos rfl] at hk
    unfold Node.ofByte at hk
    rw [if_neg (by omega), if_pos (by omega)] at hk
    exact absurd hk (by simp)
  · rw [byteAt_write_at, if_pos rfl] at hk
    unfold Node.ofByte at hk
    rw [if_pos (by omega)] at hk
    exact absurd hk (by simp)

theorem ofByte_internal_byte {k : ℕ} (hk : k ≤ 61) :
    Node.ofByte (193 + k) = .internal k := by
  unfold Node.ofByte
  rw [if_neg (by omega), if_neg (by omega), if_pos (by omega)]
  rw [show 193 + k - 193 = k by omega]

theorem genFull_dtb {ar : ℕ → ℕ} {nT nI : ℕ} (har : ∀ k, ar k ≤ 2)
    (hnT : nT ≤ 64) (hnI : nI ≤ 62) :
    ∀ (d i : ℕ) (p p' : List ℕ), GenFull ar nT nI d i p p' →
      depth_to_bottom ar p' i ≤ d := by
  intro d
  induction d with
  | zero =>
      intro i p p' h
      rw [dtb_of_not_internal ar p' i (genTerm_not_internal hnT h)]
  | succ d ih =>
      intro i p p' h
      obtain ⟨k, hkn, hch⟩ := h
      have hroot : byteAt p' i = 193 + k := by
        rw [chain_outside (fun c p q h => genFull_outside har d c p q h) hch i
          (fun c hc hdc => by
            rcases mem_child_indices hc (har k) with rfl | rfl <;>
              exact absurd hdc.le (by omega))]
        rw [byteAt_write_at, if_pos rfl]
      have hint : Node.ofByte (byteAt p' i) = .internal k := by
        rw [hroot]; exact ofByte_internal_byte (by omega)
      rw [dtb_internal ar p' i k hint]
      have h2 := har k
      rcases Nat.lt_or_ge (ar k) 1 with ha | ha
      · rw [if_neg (by omega), if_neg (by omega)]
        omega
      rcases Nat.lt_or_ge (ar k) 2 with hb | hb
      · -- exactly one child
        have hak1 : ar k = 1 := by omega
        rw [hak1, child_indices_one] at hch
        obtain ⟨q, hq, hnil⟩ := chain_cons_inv hch
        have hpq : p' = q := chain_nil_inv hnil
        subst hpq
        rw [if_pos (by omega), if_neg (by omega)]
        have := ih (2 * i + 1) _ _ hq
        exact max_le (by omega) (by omega)
      · -- two children
        have hak1 : ar k = 2 := by omega
        rw [hak1, child_indices_two] at hch
        obtain ⟨q1, hq1, hch1⟩ := chain_cons_inv hch
        obtain ⟨q2, hq2, hnil⟩ := chain_cons_inv hch1
        have hpq : p' = q2 := chain_nil_inv hnil
        subst hpq
        rw [if_pos (by omega), if_pos (by omega)]
        have hr2 := ih (2 * i + 2) _ _ hq2
        have hcongr : depth_to_bottom ar p' (2 * i + 1)
            = depth_to_bottom ar q1 (2 * i + 1) := by
          apply dtb_congr
          intro x hdx
          exact genFull_outside har d (2 * i + 2) _ _ hq2 x
            (fun hd => siblings_not_both i x ⟨hdx, hd⟩)
        have hr1 := ih (2 * i + 1) _ _ hq1
        exact max_le (by omega) (by omega)

theorem genGrow_dtb {ar : ℕ → ℕ} {nT nI : ℕ} (har : ∀ k, ar k ≤ 2)
    (hnT : nT ≤ 64) (hnI : nI ≤ 62) :
    ∀ (d i : ℕ) (p p' : List ℕ), GenGrow ar nT nI d i p p' →
      depth_to_bottom ar p' i ≤ d := by
  intro d
  induction d with
  | zero =>
      intro i p p' h
      rw [dtb_of_not_internal ar p' i (genTerm_not_internal hnT h)]
  | succ d ih =>
      intro i p p' h
      rcases h with ⟨t, ht, rfl⟩ | ⟨k, hkn, hch⟩
      · rw [dtb_of_not_internal ar _ i
          (genTerm_not_internal hnT (Or.inl ⟨t, ht, rfl⟩))]
        omega
      have hroot : byteAt p' i = 193 + k := by
        rw [chain_outside (fun c p q h => genGrow_outside har d c p q h) hch i
          (fun c hc hdc => by
            rcases mem_child_indices hc (har k) with rfl | rfl <;>
              exact absurd hdc.le (by omega))]
        rw [byteAt_write_at, if_pos rfl]
      have hint : Node.ofByte (byteAt p' i) = .internal k := by
        rw [hroot]; exact ofByte_internal_byte (by omega)
      rw [dtb_internal ar p' i k hint]
      have h2 := har k
      rcases Nat.lt_or_ge (ar k) 1 with ha | ha
      · rw [if_neg (by omega), if_neg (by omega)]
        omega
      rcases Nat.lt_or_ge (ar k) 2 with hb | hb
      · have hak1 : ar k = 1 := by omega
        rw [hak1, child_indices_one] at hch
        obtain ⟨q, hq, hnil⟩ := chain_cons_inv hch
        have hpq : p' = q := chain_nil_inv hnil
        subst hpq
        rw [if_pos (by omega), if_neg (by omega)]
        have := ih (2 * i + 1) _ _ hq
        exact max_le (by omega) (by omega)
      · have hak1 : ar k = 2 := by omega
        rw [hak1, child_indices_two] at hch
        obtain ⟨q1, hq1, hch1⟩ := chain_cons_inv hch
        obtain ⟨q2, hq2, hnil⟩ := chain_cons_inv hch1
        have hpq : p' = q2 := chain_nil_inv hnil
        subst hpq
        rw [if_pos (by omega), if_pos (by omega)]
        have hr2 := ih (2 * i + 2) _ _ hq2
        have hcongr : depth_to_bottom ar p' (2 * i + 1)
            = depth_to_bottom ar q1 (2 * i + 1) := by
          apply dtb_congr
          intro x hdx
          exact genGrow_outside har d (2 * i + 2) _ _ hq2 x
            (fun hd => siblings_not_both i x ⟨hdx, hd⟩)
        have hr1 := ih (2 * i + 1) _ _ hq1
        exact max_le (by omega) (by omega)

/-! ## Replacing a subtree: the effect on the root depth

If `p'` agrees with `p` outside the cone of `s` and the new subtree at `s`
has depth at most `E`, then along the ancestor path of `s` the quantity
`depth_to_bottom + depth_from_top` is bounded by its old value or by
`depth_from_top s + E`. -/

theorem replace_bound (ar : ℕ → ℕ) (p p' : List ℕ) (s E : ℕ)
    (hag : ∀ x, ¬ Desc s x → byteAt p' x = byteAt p x)
    (hE : depth_to_bottom ar p' s ≤ E) :
    ∀ (m j : ℕ), Desc j s → j ≠ s → depth_from_top j + m = depth_from_top s →
      depth_to_bottom ar p' j + depth_from_top j
        ≤ max (depth_to_bottom ar p j + depth_from_top j)
          (depth_from_top s + E) := by
  intro m
  induction m with
  | zero =>
      intro j hjs hne hm
      have := ft_lt_of_desc hjs hne
      omega
  | succ m ih =>
      intro j hjs hne hm
      have hsj : ¬ Desc s j := fun hd => hne (desc_antisymm hjs hd)
      have hbj : byteAt p' j = byteAt p j := hag j hsj
      cases hb : Node.ofByte (byteAt p j) with
      | internal k =>
          have hftj := ft_lt_of_desc hjs hne
          have hcomp : ∀ c, (c = 2 * j + 1 ∨ c = 2 * j + 2) →
              depth_to_bottom ar p' c + 1 + depth_from_top j
                ≤ max (depth_to_bottom ar p c + 1 + depth_from_top j)
                  (depth_from_top s + E) := by
            intro c hc
            have hftc : depth_from_top c = depth_from_top j + 1 := ft_child hc
            by_cases hcs : c = s
            · subst hcs
              exact le_trans (by omega) (le_max_right _ _)
            · by_cases hds : Desc c s
              · have hIH := ih c hds hcs (by omega)
                rcases le_max_iff.mp hIH with h | h
                · exact le_max_iff.mpr (Or.inl (by omega))
                · exact le_max_iff.mpr (Or.inr (by omega))
              · have heq : depth_to_bottom ar p' c = depth_to_bottom ar p c := by
                  apply dtb_congr
                  intro x hcx
                  apply hag
                  intro hsx
                  rcases desc_comparable x s c hsx hcx with hd | hd
                  · have hnsc : s ≠ c := fun he => hcs (he.symm)
                    have := ft_lt_of_desc hd hnsc
                    omega
                  · exact hds hd
                exact le_max_iff.mpr (Or.inl (by omega))
          rw [dtb_internal ar p' j k (by rw [hbj]; exact hb),
            dtb_internal ar p j k hb]
          have hA : (if 1 ≤ ar k then depth_to_bottom ar p' (2 * j + 1) + 1 else 0)
              + depth_from_top j
              ≤ max ((if 1 ≤ ar k then depth_to_bottom ar p (2 * j + 1) + 1 else 0)
                  + depth_from_top j)
                (depth_from_top s + E) := by
            by_cases h1 : 1 ≤ ar k
            · rw [if_pos h1, if_pos h1]
              exact hcomp (2 * j + 1) (Or.inl rfl)
            · rw [if_neg h1, if_neg h1]
              exact le_max_iff.mpr (Or.inl (le_refl _))
          have hB : (if 2 ≤ ar k then depth_to_bottom ar p' (2 * j + 2) + 1 else 0)
              + depth_from_top j
              ≤ max ((if 2 ≤ ar k then depth_to_bottom ar p (2 * j + 2) + 1 else 0)
                  + depth_from_top j)
                (depth_from_top s + E) := by
            by_cases h2 : 2 ≤ ar k
            · rw [if_pos h2, if_pos h2]
              exact hcomp (2 * j + 2) (Or.inr rfl)
            · rw [if_neg h2, if_neg h2]
              exact le_max_iff.mpr (Or.inl (le_refl _))
          rw [← max_add_add_right, ← max_add_add_right]
          apply max_le
          · exact le_trans hA (max_le_max (le_max_left _ _) (le_refl _))
          · exact le_trans hB (max_le_max (le_max_right _ _) (le_refl _))
      | const q =>
          have h1 : depth_to_bottom ar p' j = 0 :=
            dtb_of_not_internal ar p' j
              (fun t ht => by rw [hbj, hb] at ht; exact absurd ht (by simp))
          have h2 : depth_to_bottom ar p j = 0 :=
            dtb_of_not_internal ar p j
              (fun t ht => by rw [hb] at ht; exact absurd ht (by simp))
          exact le_max_iff.mpr (Or.inl (by omega))
      | terminal t =>
          have h1 : depth_to_bottom ar p' j = 0 :=
            dtb_of_not_internal ar p' j
              (fun u hu => by rw [hbj, hb] at hu; exact absurd hu (by simp))
          have h2 : depth_to_bottom ar p j = 0 :=
            dtb_of_not_internal ar p j
              (fun u hu => by rw [hb] at hu; exact absurd hu (by simp))
          exact le_max_iff.mpr (Or.inl (by omega))
      | null =>
          have h1 : depth_to_bottom ar p' j = 0 :=
            dtb_of_not_internal ar p' j
              (fun u hu => by rw [hbj, hb] at hu; exact absurd hu (by simp))
          have h2 : depth_to_bottom ar p j = 0 :=
            dtb_of_not_internal ar p j
              (fun u hu => by rw [hb] at hu; exact absurd hu (by simp))
          exact le_max_iff.mpr (Or.inl (by omega))

theorem replace_root (ar : ℕ → ℕ) (p p' : List ℕ) (s E : ℕ)
    (hag : ∀ x, ¬ Desc s x → byteAt p' x = byteAt p x)
    (hE : depth_to_bottom ar p' s ≤ E) :
    depth_to_bottom ar p' 0
      ≤ max (depth_to_bottom ar p 0) (depth_from_top s + E) := by
  by_cases hs0 : s = 0
  · subst hs0
    exact le_max_iff.mpr (Or.inr (by have := ft_zero; omega))
  · have h := replace_bound ar p p' s E hag hE (depth_from_top s) 0
      (desc_zero s) (fun he => hs0 he.symm) (by have := ft_zero; omega)
    have hf0 := ft_zero
    rcases le_max_iff.mp h with h | h
    · exact le_max_iff.mpr (Or.inl (by omega))
    · exact le_max_iff.mpr (Or.inr (by omega))

/-! ## The GP operators and the depth invariant -/

/-- The `Program::verify` invariant: a stored byte is non-null exactly when
its index is active (reachable from the root). -/
def Inv (ar : ℕ → ℕ) (p : List ℕ) : Prop :=
  ∀ i, i < p.length → (byteAt p i ≠ 255 ↔ i ∈ all_active_indices ar p)

/-- `GPContext::mutation`: pick an active index, clear its subtree, grow a
fresh subtree of depth at most `max_depth - depth_from_top(index)`. -/
def Mutation (ar : ℕ → ℕ) (nT nI maxD : ℕ) (p p' : List ℕ) : Prop :=
  ∃ s ∈ all_active_indices ar p,
    GenGrow ar nT nI (maxD - depth_from_top s) s (clear_subtree ar p s) p'

/-- `GPContext::crossover`: pick layers `dp1 ≤ depth1` and
`dp2 ∈ [(dp1 + depth2) - maxD, min (maxD - depth1 + dp1) depth2]`, pick
non-null in-bounds indices in those layers, clear each subtree and copy the
other parent's subtree into its place. -/
def Crossover (ar : ℕ → ℕ) (maxD : ℕ) (p1 p2 c1 c2 : List ℕ) : Prop :=
  ∃ dp1 dp2 s1 s2,
    dp1 ≤ depth_to_bottom ar p1 0
    ∧ dp1 + depth_to_bottom ar p2 0 - maxD ≤ dp2
    ∧ dp2 ≤ min (maxD - depth_to_bottom ar p1 0 + dp1) (depth_to_bottom ar p2 0)
    ∧ in_layer s1 dp1 ∧ s1 < p1.length ∧ byteAt p1 s1 ≠ 255
    ∧ in_layer s2 dp2 ∧ s2 < p2.length ∧ byteAt p2 s2 ≠ 255
    ∧ c1 = copy_subtree ar p2 (clear_subtree ar p1 s1) s1 s2
    ∧ c2 = copy_subtree ar p1 (clear_subtree ar p2 s2) s2 s1

/-- **C3**: for every `max_depth ≥ 1` (with at most 64 terminals, at most 62
internals, and internal arities at most the two child slots), programs
produced at the root by `gen_full_at` or `gen_grow_at` with depth at most
`max_depth`, by `mutation` of a program of depth at most `max_depth`, or as
either child of `crossover` of two invariant-satisfying programs of depth
at most `max_depth`, all satisfy `depth_to_bottom 0 ≤ max_depth`; in
particular the two depth assertions at the end of `crossover` never fail. -/
theorem c3_depth_invariant (ar : ℕ → ℕ) (nT nI maxD : ℕ)
    (har : ∀ k, ar k ≤ 2) (hnT : nT ≤ 64) (hnI : nI ≤ 62) (_hmaxD : 1 ≤ maxD) :
    (∀ (d : ℕ) (p p' : List ℕ), d ≤ maxD → GenFull ar nT nI d 0 p p' →
        depth_to_bottom ar p' 0 ≤ maxD)
    ∧ (∀ (d : ℕ) (p p' : List ℕ), d ≤ maxD → GenGrow ar nT nI d 0 p p' →
        depth_to_bottom ar p' 0 ≤ maxD)
    ∧ (∀ (p p' : List ℕ), Inv ar p → depth_to_bottom ar p 0 ≤ maxD →
        Mutation ar nT nI maxD p p' → depth_to_bottom ar p' 0 ≤ maxD)
    ∧ (∀ (p1 p2 c1 c2 : List ℕ), Inv ar p1 → Inv ar p2 →
        depth_to_bottom ar p1 0 ≤ maxD → depth_to_bottom ar p2 0 ≤ maxD →
        Crossover ar maxD p1 p2 c1 c2 →
        depth_to_bottom ar c1 0 ≤ maxD ∧ depth_to_bottom ar c2 0 ≤ maxD) := by
  refine ⟨?_, ?_, ?_, ?_⟩
  · intro d p p' hd h
    exact le_trans (genFull_dtb har hnT hnI d 0 p p' h) hd
  · intro d p p' hd h
    exact le_trans (genGrow_dtb har hnT hnI d 0 p p' h) hd
  · intro p p' _ hdp hmut
    obtain ⟨s, hs, hgen⟩ := hmut
    have hb := collect_bound ar p 0 s hs
    have hf0 := ft_zero
    have hE : depth_to_bottom ar p' s ≤ maxD - depth_from_top s :=
      genGrow_dtb har hnT hnI _ s _ p' hgen
    have hag : ∀ x, ¬ Desc s x → byteAt p' x = byteAt p x := by
      intro x hx
      rw [genGrow_outside har _ s _ p' hgen x hx, clear_outside ar p s x hx]
    have hr := replace_root ar p p' s (maxD - depth_from_top s) hag hE
    rcases le_max_iff.mp hr with h | h
    · omega
    · omega
  · intro p1 p2 c1 c2 hI1 hI2 hd1 hd2 hx
    obtain ⟨dp1, dp2, s1, s2, hdp1, hmin, hmax, hl1, hlen1, hnn1, hl2, hlen2,
      hnn2, hc1, hc2⟩ := hx
    have hft1 : depth_from_top s1 = dp1 := ft_of_in_layer hl1
    have hft2 : depth_from_top s2 = dp2 := ft_of_in_layer hl2
    have hs1a : s1 ∈ all_active_indices ar p1 := (hI1 s1 hlen1).mp hnn1
    have hs2a : s2 ∈ all_active_indices ar p2 := (hI2 s2 hlen2).mp hnn2
    have hb1 := collect_bound ar p1 0 s1 hs1a
    have hb2 := collect_bound ar p2 0 s2 hs2a
    have hf0 := ft_zero
    have hmax' := le_min_iff.mp hmax
    constructor
    · have hE : depth_to_bottom ar c1 s1 ≤ depth_to_bottom ar p2 s2 := by
        rw [hc1]
        exact copy_subtree_dtb ar p2 _ s1 s2
      have hag : ∀ x, ¬ Desc s1 x → byteAt c1 x = byteAt p1 x := by
        intro x hx
        rw [hc1, copy_subtree_outside ar p2 _ s1 s2 x hx,
          clear_outside ar p1 s1 x hx]
      have hr := replace_root ar p1 c1 s1 (depth_to_bottom ar p2 s2) hag hE
      rcases le_max_iff.mp hr with h | h
      · omega
      · omega
    · have hE : depth_to_bottom ar c2 s2 ≤ depth_to_bottom ar p1 s1 := by
        rw [hc2]
        exact copy_subtree_dtb ar p1 _ s2 s1
      have hag : ∀ x, ¬ Desc s2 x → byteAt c2 x = byteAt p2 x := by
        intro x hx
        rw [hc2, copy_subtree_outside ar p1 _ s2 s1 x hx,
          clear_outside ar p2 s2 x hx]
      have hr := replace_root ar p2 c2 s2 (depth_to_bottom ar p1 s1) hag hE
      rcases le_max_iff.mp hr with h | h
      · omega
      · omega

/-- Witness: `c3_depth_invariant` applied to the concrete arity function of
both contexts (every internal has two children), 13 terminals, 13
internals, `max_depth = 2`, and the full generation of the single-terminal
program `[130]` from the empty program. -/
theorem c3_depth_invariant_witness :
    GenFull (fun _ => 2) 13 13 0 0 [] [130]
    ∧ depth_to_bottom (fun _ => 2) [130] 0 ≤ 2 := by
  have hg : GenFull (fun _ => 2) 13 13 0 0 [] [130] :=
    Or.inl ⟨1, by decide, by decide⟩
  exact ⟨hg, (c3_depth_invariant (fun _ => 2) 13 13 2 (fun k => le_refl 2)
    (by decide) (by decide) (by decide)).1 0 [] [130] (by decide) hg⟩

end Vrpr
